import Mathlib

/-!
Verification development for the `ksgw` lock-free queue library
(`src/lockfree_queue.h`): a shallow sequential embedding of the two queue
implementations and proofs of the specification's claims about them.

The embedding is sequential: each `push`/`pop` call runs to completion with
no interleaving, so every compare-and-swap compares a freshly loaded value.
Machine integers are modelled as `Nat` reduced modulo the relevant power of
two exactly where the C++ types wrap (`size_t` is 64 bits, the `addr`
bitfield of `internal::Ptr` is 48 bits, the `vers` bitfield is 16 bits).
Heap memory for the list-based queue is an explicit address-indexed store;
dereferencing a freed or never-allocated address yields `none` (undefined
behaviour in the source), so theorems about runs also certify the absence
of use-after-free and double-free in those runs.
-/

namespace LFQ

/-- 2^64: the modulus of `size_t` / `uint64_t` arithmetic. -/
def U64 : Nat := 2 ^ 64

/-- 2^48: the `addr` bitfield of `internal::Ptr` is 48 bits wide. -/
def P48 : Nat := 2 ^ 48

/-- 2^16: the `vers` bitfield of `internal::Ptr` is 16 bits wide. -/
def P16 : Nat := 2 ^ 16

/-- `internal::Ptr<T>`: a tagged pointer packing a 48-bit address and a
16-bit version counter into one 64-bit word. -/
structure TPtr where
  addr : Nat
  vers : Nat
deriving DecidableEq

/-- The `Ptr(T* ptr, uint64_t ver)` constructor: both bitfields truncate. -/
def TPtr.mk' (p v : Nat) : TPtr := ⟨p % P48, v % P16⟩

/-- `Ptr::isNull()`: the address part is zero. -/
def TPtr.isNull (p : TPtr) : Prop := p.addr = 0

instance (p : TPtr) : Decidable p.isNull := inferInstanceAs (Decidable (p.addr = 0))

/-- `Ptr::addrEqual(other)`: address-only comparison. -/
def TPtr.addrEqual (p q : TPtr) : Prop := p.addr = q.addr

instance (p q : TPtr) : Decidable (p.addrEqual q) :=
  inferInstanceAs (Decidable (p.addr = q.addr))

/-- `Ptr::upgrade()`: increment the 16-bit version in place. -/
def TPtr.upgrade (p : TPtr) : TPtr := ⟨p.addr, (p.vers + 1) % P16⟩

/-- `Ptr::setVer(ver)`: overwrite the 16-bit version. -/
def TPtr.setVer (p : TPtr) (v : Nat) : TPtr := ⟨p.addr, v % P16⟩

/-- `internal::Node<T>`: the `_next` tagged pointer, the `_data` payload and
the `_ref` manual reference count (a `size_t`). -/
structure LNode (T : Type) where
  next : TPtr
  data : T
  ref : Nat
deriving DecidableEq

/-- The heap for list-based queue nodes: entry `i` is the cell at address
`i + 1` (`none` once freed); address `0` is the null pointer. -/
abbrev LHeap (T : Type) := List (Option (LNode T))

/-- Dereference address `a`; `none` models a null, dangling or freed
pointer dereference (undefined behaviour in the source). -/
def lookupL (h : LHeap T) (a : Nat) : Option (LNode T) :=
  if a = 0 then none else (h[a - 1]?).join

/-- Overwrite the live cell at address `a`. -/
def setL (h : LHeap T) (a : Nat) (n : LNode T) : LHeap T := h.set (a - 1) (some n)

/-- `delete` of the node at address `a`. -/
def freeL (h : LHeap T) (a : Nat) : LHeap T := h.set (a - 1) none

/-- `new Node<T>(...)`: append a fresh cell, returning the heap and the
fresh (nonzero) address. -/
def allocL (h : LHeap T) (n : LNode T) : LHeap T × Nat := (h ++ [some n], h.length + 1)

/-- The `Node(T&& t)` constructor: `_next` is a null tagged pointer at
version 0 and `_ref` starts at 1. -/
def newLNode (v : T) : LNode T := ⟨TPtr.mk' 0 0, v, 1⟩

/-- `Node::release()`: `fetch_sub(1)` returns the PREVIOUS count and the
node is deleted when that previous count is zero (`if(!ref) delete this;`);
otherwise the stored count becomes one less. Releasing a freed or invalid
address is undefined behaviour (`none`). -/
def releaseH (h : LHeap T) (a : Nat) : Option (LHeap T) :=
  match lookupL h a with
  | none => none
  | some n =>
    if n.ref = 0 then some (freeL h a)
    else some (setL h a { n with ref := n.ref - 1 })

/-- The state of a `list_based::Queue<T>`: the node heap plus the `_head`
and `_tail` tagged-pointer atomics. -/
structure LState (T : Type) where
  heap : LHeap T
  head : TPtr
  tail : TPtr
deriving DecidableEq

/-- The `list_based::Queue` constructor: allocate a sentinel holding `T()`,
`release()` it once, then store `Ptr(node, 0)` into `_head` and
`Ptr(node, 0x7fff)` into `_tail`. -/
def mkL (T : Type) [Inhabited T] : LState T :=
  let p := allocL ([] : LHeap T) (newLNode (default : T))
  let h1 := match releaseH p.1 p.2 with
    | some h => h
    | none => p.1
  { heap := h1, head := TPtr.mk' p.2 0, tail := TPtr.mk' p.2 0x7fff }

/-- Outcome of one iteration of the `push` retry loop: the loop exits
(`done`), runs again (`retry`, carrying the possibly mutated state),
dereferences an invalid pointer (`fail`), or trips the `assert` (`abort`). -/
inductive PushRes (T : Type) where
  | done (s : LState T)
  | retry (s : LState T)
  | fail
  | abort
deriving DecidableEq

/-- Lines 141-143 of the source: `CAS(_tail, tail, node_ptr)` followed by
`assert(rst)`. A failed CAS fires the assertion, which aborts. -/
def pushFinishL (s : LState T) (tl np : TPtr) : PushRes T :=
  if s.tail = tl then .done { s with tail := np } else .abort

/-- One iteration of the `list_based::Queue::push` loop (lines 129-144):
load `_tail`, load `tail->next`; a non-null `next` means `continue`;
otherwise stamp the new node's version, store a null next pointer into the
new node, CAS the new node into `tail->next` (retry on failure), then
advance `_tail` (asserted to succeed). -/
def pushIterL (s : LState T) (np : TPtr) : PushRes T :=
  let tl := s.tail
  match lookupL s.heap tl.addr with
  | none => .fail
  | some tlNode =>
    let nx := tlNode.next
    if ¬ nx.isNull then .retry s
    else
      let np' := np.setVer (nx.vers + 1)
      match lookupL s.heap np'.addr with
      | none => .fail
      | some npNode =>
        let s2 : LState T :=
          { s with heap := setL s.heap np'.addr { npNode with next := TPtr.mk' 0 (nx.vers + 1) } }
        match lookupL s2.heap tl.addr with
        | none => .fail
        | some tlNode2 =>
          if tlNode2.next = nx then
            let s3 : LState T :=
              { s2 with heap := setL s2.heap tl.addr { tlNode2 with next := np' } }
            pushFinishL s3 tl np'
          else .retry s2

/-- The `push` retry loop, fuelled. Sequentially one unit of fuel always
suffices in reachable states; exhausted fuel (`none`) corresponds to the
sequential caller spinning forever. -/
def pushLoopL : Nat → LState T → TPtr → Option (LState T)
  | 0, _, _ => none
  | fuel + 1, s, np =>
    match pushIterL s np with
    | .done s' => some s'
    | .retry s' => pushLoopL fuel s' np
    | .fail => none
    | .abort => none

/-- `list_based::Queue::push(T&&)`: allocate `new Node<T>(t)` wrapped in
`Ptr(node, 0)`, then run the retry loop. -/
def pushL (s : LState T) (v : T) : Option (LState T) :=
  let p := allocL s.heap (newLNode v)
  pushLoopL 1 { s with heap := p.1 } (TPtr.mk' p.2 0)

/-- Outcome of one iteration of the `pop` retry loop. -/
inductive PopRes (T : Type) where
  | done (v : T) (s : LState T)
  | empty
  | retry (s : LState T)
  | fail
deriving DecidableEq

/-- One iteration of `list_based::Queue::pop` (lines 148-164): load
`_head`, `_tail` and `head->next`; return the empty signal when
`head.addrEqual(tail) || next.isNull()`; otherwise upgrade `next`'s
version, CAS `_head` forward, read the payload of the new head node,
`release()` it once and `release()` the old head node once. -/
def popIterL (s : LState T) : PopRes T :=
  let hd := s.head
  let tl := s.tail
  match lookupL s.heap hd.addr with
  | none => .fail
  | some hdNode =>
    let nx := hdNode.next
    if hd.addrEqual tl ∨ nx.isNull then .empty
    else
      let nx' := nx.upgrade
      if s.head = hd then
        let s1 : LState T := { s with head := nx' }
        match lookupL s1.heap nx'.addr with
        | none => .fail
        | some nxNode =>
          match releaseH s1.heap nx'.addr with
          | none => .fail
          | some h2 =>
            match releaseH h2 hd.addr with
            | none => .fail
            | some h3 => .done nxNode.data { s1 with heap := h3 }
      else .retry s

/-- The `pop` retry loop, fuelled. -/
def popLoopL : Nat → LState T → Option (Option (T × LState T))
  | 0, _ => none
  | fuel + 1, s =>
    match popIterL s with
    | .done v s' => some (some (v, s'))
    | .empty => some none
    | .retry s' => popLoopL fuel s'
    | .fail => none

/-- `list_based::Queue::pop(T&)`: `some (some (v, s'))` when it returns 0
with `v` written to the out-parameter, `some none` when it returns -1. -/
def popL (s : LState T) : Option (Option (T × LState T)) := popLoopL 1 s

/-- The destructor's drain loop: `pop` until it reports empty
(`if(!pop(t) == 0) break;` breaks exactly when `pop` returned -1). -/
def drainL : Nat → LState T → Option (LState T)
  | 0, _ => none
  | fuel + 1, s =>
    match popL s with
    | some (some (_, s')) => drainL fuel s'
    | some none => some s
    | none => none

/-- `list_based::Queue::~Queue()`: drain, then `_head.load().ptr()->release()`. -/
def dtorL (fuel : Nat) (s : LState T) : Option (LState T) :=
  match drainL fuel s with
  | none => none
  | some s' =>
    match releaseH s'.heap s'.head.addr with
    | none => none
    | some h => some { s' with heap := h }

/-- Push a whole list of values in order. -/
def pushSeqL : LState T → List T → Option (LState T)
  | s, [] => some s
  | s, v :: vs =>
    match pushL s v with
    | some s' => pushSeqL s' vs
    | none => none

/-- Pop `n` times, requiring every pop to succeed, collecting the values. -/
def popSeqL : LState T → Nat → Option (List T × LState T)
  | s, 0 => some ([], s)
  | s, n + 1 =>
    match popL s with
    | some (some (v, s')) =>
      match popSeqL s' n with
      | some (l, s'') => some (v :: l, s'')
      | none => none
    | _ => none

/-! ## The array-based bounded queue -/

/-- `array_based::Queue::InvalidPosition = ~0ULL`. -/
def InvalidPosition : Nat := U64 - 1

/-- One slot of `array_based::Queue<T>::Node`: the payload cell (`none`
models uninitialised or destroyed storage) and the two sequence stamps. -/
structure ANode (T : Type) where
  val : Option T
  readIndex : Nat
  storeIndex : Nat
deriving DecidableEq

/-- The state of an `array_based::Queue<T>`. -/
structure AQueue (T : Type) where
  nodes : List (ANode T)
  capacity : Nat
  capacityMask : Nat
  head : Nat
  tail : Nat
deriving DecidableEq

/-- The constructor's mask loop
`while(capMaskRef){ _capacityMask |= capMaskRef; capMaskRef >>= 1; }`,
fuelled; 64 units of fuel are exact for any `size_t` argument since the
reference value halves each iteration. -/
def smearLoop : Nat → Nat → Nat → Nat
  | 0, mask, _ => mask
  | fuel + 1, mask, ref => if ref = 0 then mask else smearLoop fuel (mask ||| ref) (ref / 2)

/-- The `array_based::Queue(size_t capacity)` constructor: compute the
mask from `capacity - 1` (in `size_t` arithmetic), set
`_capacity = _capacityMask + 1` (also `size_t`), zero the cursors and
pre-stamp slot `i` with `readIndex = InvalidPosition`, `storeIndex = i`. -/
def mkA (T : Type) (c : Nat) : AQueue T :=
  let capMaskRef := (c + (U64 - 1)) % U64
  let mask := smearLoop 64 0 capMaskRef
  let cap := (mask + 1) % U64
  { nodes := (List.range cap).map fun i => ⟨none, InvalidPosition, i⟩,
    capacity := cap, capacityMask := mask, head := 0, tail := 0 }

/-- `array_based::Queue::push(T)`: capture `_tail`, index the slot through
the mask, return `false` immediately when the slot's `storeIndex` differs
from the captured tail, otherwise CAS `_tail` forward (sequentially the
compare always holds; a failed compare would re-run the loop on an
unchanged state, which never terminates sequentially, hence `none`),
construct the value in the slot and publish `readIndex = tailCapture`.
Out-of-bounds slot access (capacity 0) is undefined behaviour (`none`). -/
def pushA (q : AQueue T) (v : T) : Option (Bool × AQueue T) :=
  let tailCapture := q.tail
  let idx := tailCapture &&& q.capacityMask
  match q.nodes[idx]? with
  | none => none
  | some node =>
    if node.storeIndex ≠ tailCapture then some (false, q)
    else if q.tail = tailCapture then
      some (true, { q with
        tail := (tailCapture + 1) % U64,
        nodes := q.nodes.set idx { node with val := some v, readIndex := tailCapture } })
    else none

/-- `array_based::Queue::pop(T&)`: capture `_head`, index the slot, return
`false` when the slot's `readIndex` differs from the captured head,
otherwise CAS `_head` forward, move the payload out (destroying it in
place) and republish `storeIndex = headCapture + _capacity` for the next
cycle. The `Bool` is the return value; the `Option T` is the
out-parameter, written only on success. -/
def popA (q : AQueue T) : Option (Bool × Option T × AQueue T) :=
  let headCapture := q.head
  let idx := headCapture &&& q.capacityMask
  match q.nodes[idx]? with
  | none => none
  | some node =>
    if node.readIndex ≠ headCapture then some (false, none, q)
    else if q.head = headCapture then
      some (true, node.val, { q with
        head := (headCapture + 1) % U64,
        nodes := q.nodes.set idx { node with val := none, storeIndex := (headCapture + q.capacity) % U64 } })
    else none

/-- Push a whole list of values in order, collecting the returned flags. -/
def pushSeqA : AQueue T → List T → Option (List Bool × AQueue T)
  | q, [] => some ([], q)
  | q, v :: vs =>
    match pushA q v with
    | some (b, q') =>
      match pushSeqA q' vs with
      | some (bs, q'') => some (b :: bs, q'')
      | none => none
    | none => none

/-- Pop `n` times, requiring every pop to succeed with a written value. -/
def popSeqA : AQueue T → Nat → Option (List T × AQueue T)
  | q, 0 => some ([], q)
  | q, n + 1 =>
    match popA q with
    | some (true, some v, q') =>
      match popSeqA q' n with
      | some (l, q'') => some (v :: l, q'')
      | none => none
    | _ => none

/-! ## Basic heap lemmas -/

theorem lookupL_ne_zero {h : LHeap T} {a : Nat} {n : LNode T} (hl : lookupL h a = some n) :
    a ≠ 0 := by
  intro ha
  simp [lookupL, ha] at hl

theorem lookupL_le_length {h : LHeap T} {a : Nat} {n : LNode T} (hl : lookupL h a = some n) :
    a ≤ h.length := by
  by_contra hgt
  push_neg at hgt
  have ha : a ≠ 0 := lookupL_ne_zero hl
  have : h.length ≤ a - 1 := by omega
  rw [lookupL, if_neg ha, List.getElem?_eq_none this] at hl
  simp [Option.join] at hl

theorem lookupL_set_self {h : LHeap T} {a : Nat} {n : LNode T} (hl : lookupL h a = some n)
    (m : LNode T) : lookupL (setL h a m) a = some m := by
  have ha : a ≠ 0 := lookupL_ne_zero hl
  have hlen : a ≤ h.length := lookupL_le_length hl
  have hlt : a - 1 < h.length := by omega
  rw [lookupL, if_neg ha, setL, List.getElem?_set_self hlt]
  simp [Option.join]

theorem lookupL_set_ne (h : LHeap T) (a b : Nat) (m : LNode T) (hne : b ≠ a) (ha : a ≠ 0)
    (hb : b ≠ 0) : lookupL (setL h a m) b = lookupL h b := by
  have : a - 1 ≠ b - 1 := by omega
  rw [lookupL, if_neg hb, lookupL, if_neg hb, setL, List.getElem?_set_ne this]

theorem lookupL_free_self {h : LHeap T} {a : Nat} {n : LNode T} (hl : lookupL h a = some n) :
    lookupL (freeL h a) a = none := by
  have ha : a ≠ 0 := lookupL_ne_zero hl
  have hlen : a ≤ h.length := lookupL_le_length hl
  have hlt : a - 1 < h.length := by omega
  rw [lookupL, if_neg ha, freeL, List.getElem?_set_self hlt]
  simp [Option.join]

theorem lookupL_free_ne (h : LHeap T) (a b : Nat) (hne : b ≠ a) (ha : a ≠ 0) (hb : b ≠ 0) :
    lookupL (freeL h a) b = lookupL h b := by
  have : a - 1 ≠ b - 1 := by omega
  rw [lookupL, if_neg hb, lookupL, if_neg hb, freeL, List.getElem?_set_ne this]

theorem lookupL_append {h h2 : LHeap T} {a : Nat} {n : LNode T} (hl : lookupL h a = some n) :
    lookupL (h ++ h2) a = some n := by
  have ha : a ≠ 0 := lookupL_ne_zero hl
  have hlen : a ≤ h.length := lookupL_le_length hl
  rw [lookupL, if_neg ha, List.getElem?_append_left (by omega)]
  rw [lookupL, if_neg ha] at hl
  exact hl

theorem lookupL_concat_fresh (h : LHeap T) (n : LNode T) :
    lookupL (h ++ [some n]) (h.length + 1) = some n := by
  rw [lookupL, if_neg (by omega)]
  simp [List.getElem?_concat_length, Option.join]

theorem length_setL (h : LHeap T) (a : Nat) (n : LNode T) :
    (setL h a n).length = h.length := by
  simp [setL]

theorem length_freeL (h : LHeap T) (a : Nat) :
    (freeL h a).length = h.length := by
  simp [freeL]

/-! ## Claim C10: failed bounded-queue operations leave the state intact -/

/-- Claim C10 (confirmed): whenever a bounded-queue `push` returns `false`
(full) or a bounded-queue `pop` returns `false` (empty), the queue state —
cursors and every slot — is returned exactly as it was, and the pop
out-parameter is untouched: failure is decided by loads alone, before any
CAS or store. -/
theorem c10_failure_pure :
    (∀ (q : AQueue Nat) (v : Nat) (q' : AQueue Nat),
      pushA q v = some (false, q') → q' = q) ∧
    (∀ (q q' : AQueue Nat) (out : Option Nat),
      popA q = some (false, out, q') → out = none ∧ q' = q) := by
  constructor
  · intro q v q' hp
    simp only [pushA] at hp
    split at hp
    · exact absurd hp (by simp)
    · split at hp
      · simp at hp
        exact hp.symm
      · split at hp
        · simp at hp
        · exact absurd hp (by simp)
  · intro q q' out hp
    simp only [popA] at hp
    split at hp
    · exact absurd hp (by simp)
    · split at hp
      · simp at hp
        exact ⟨hp.1.symm, hp.2.symm⟩
      · split at hp
        · simp at hp
        · exact absurd hp (by simp)

/-- A full capacity-1 bounded queue holding the value 7. -/
def c10full : AQueue Nat := ⟨[⟨some 7, 0, 0⟩], 1, 0, 0, 1⟩

/-- A freshly constructed capacity-1 bounded queue. -/
def c10empty : AQueue Nat := mkA Nat 1

/-- Witness for C10 at concrete states. -/
theorem c10_failure_pure_witness :
    c10full = c10full ∧ ((none : Option Nat) = none ∧ c10empty = c10empty) :=
  ⟨c10_failure_pure.1 c10full 9 c10full (by decide),
   c10_failure_pure.2 c10empty c10empty none (by decide)⟩

/-! ## Claim C2: the unbounded pop's empty condition -/

/-- A state in which `_head` and `_tail` address the same node (address 1)
while that node's `next` is non-null (address 2): the state of the queue
between a concurrent push's link CAS and its tail advance. -/
def c2state : LState Nat :=
  { heap := [some ⟨⟨2, 0⟩, 0, 0⟩, some ⟨⟨0, 0⟩, 5, 1⟩], head := ⟨1, 0⟩, tail := ⟨1, 1⟩ }

/-- A two-node state: sentinel at address 1, one value (5) at address 2. -/
def c2state2 : LState Nat :=
  { heap := [some ⟨⟨2, 1⟩, 0, 0⟩, some ⟨⟨0, 1⟩, 5, 1⟩], head := ⟨1, 0⟩, tail := ⟨2, 7⟩ }

/-- The state after a successful pop from `c2state2`. -/
def c2state2' : LState Nat :=
  { heap := [none, some ⟨⟨0, 1⟩, 5, 0⟩], head := ⟨2, 2⟩, tail := ⟨2, 7⟩ }

/-- Claim C2 (counterexample): in a state where `head` and `tail` address
the same node but `head`'s next is NON-null, `pop` returns the empty
signal — it does not help advance `tail` and retry as the claim states.
The source tests `head.addrEqual(tail) || next.isNull()`, an OR, not the
claimed AND. -/
theorem c2_cex :
    popIterL c2state = PopRes.empty ∧
    c2state.head.addr = c2state.tail.addr ∧
    (lookupL c2state.heap c2state.head.addr).map (fun n => n.next.addr) = some 2 := by
  decide

/-- In the non-empty branch of the pop iteration the result is success,
retry or a failed dereference — never the empty signal. -/
theorem popIterL_ne_empty (s : LState T) (n : LNode T)
    (hl : lookupL s.heap s.head.addr = some n)
    (hcond : ¬(s.head.addr = s.tail.addr ∨ n.next.addr = 0)) :
    popIterL s ≠ PopRes.empty := by
  have hcond' : ¬(s.head.addrEqual s.tail ∨ n.next.isNull) := hcond
  simp only [popIterL, hl]
  rw [if_neg hcond', if_pos trivial]
  cases h2 : lookupL s.heap n.next.upgrade.addr with
  | none => simp
  | some m =>
    cases h3 : releaseH s.heap n.next.upgrade.addr with
    | none => simp
    | some hh =>
      cases h4 : releaseH hh s.head.addr with
      | none => simp [h4]
      | some h3' => simp [h4]

/-- The pop iteration never changes `_tail` on success. -/
theorem popIterL_tail_done (s s' : LState T) (v : T)
    (h : popIterL s = PopRes.done v s') : s'.tail = s.tail := by
  simp only [popIterL] at h
  cases h1 : lookupL s.heap s.head.addr with
  | none =>
    simp only [h1] at h
    exact PopRes.noConfusion h
  | some n =>
    simp only [h1] at h
    by_cases hc : s.head.addrEqual s.tail ∨ n.next.isNull
    · rw [if_pos hc] at h
      exact PopRes.noConfusion h
    · rw [if_neg hc] at h
      cases h2 : lookupL s.heap n.next.upgrade.addr with
      | none =>
        simp only [h2] at h
        exact PopRes.noConfusion h
      | some m =>
        simp only [h2] at h
        cases h3 : releaseH s.heap n.next.upgrade.addr with
        | none =>
          simp only [h3] at h
          exact PopRes.noConfusion h
        | some hh =>
          simp only [h3] at h
          cases h4 : releaseH hh s.head.addr with
          | none =>
            simp only [h4] at h
            exact PopRes.noConfusion h
          | some h3' =>
            simp only [h4] at h
            cases h
            rfl

/-- The sequential pop iteration never asks for a retry: its CAS compares
the value just loaded from `_head` against `_head` itself. -/
theorem popIterL_ne_retry (s s' : LState T) : popIterL s ≠ PopRes.retry s' := by
  intro h
  simp only [popIterL] at h
  cases h1 : lookupL s.heap s.head.addr with
  | none =>
    simp only [h1] at h
    exact PopRes.noConfusion h
  | some n =>
    simp only [h1] at h
    by_cases hc : s.head.addrEqual s.tail ∨ n.next.isNull
    · rw [if_pos hc] at h
      exact PopRes.noConfusion h
    · rw [if_neg hc] at h
      cases h2 : lookupL s.heap n.next.upgrade.addr with
      | none =>
        simp only [h2] at h
        exact PopRes.noConfusion h
      | some m =>
        simp only [h2] at h
        cases h3 : releaseH s.heap n.next.upgrade.addr with
        | none =>
          simp only [h3] at h
          exact PopRes.noConfusion h
        | some hh =>
          simp only [h3] at h
          cases h4 : releaseH hh s.head.addr with
          | none =>
            simp only [h4] at h
            exact PopRes.noConfusion h
          | some h3' =>
            simp only [h4] at h
            exact PopRes.noConfusion h

/-- Claim C2 (corrected): `pop` returns the empty signal exactly when
`head` and `tail` address the same node OR the head node's `next` is null
(the source's disjunction), and `pop` never modifies `_tail` — there is no
help-the-straggler step in `pop`. -/
theorem c2_empty_or :
    (∀ (s : LState Nat) (n : LNode Nat), lookupL s.heap s.head.addr = some n →
      (popIterL s = PopRes.empty ↔ s.head.addr = s.tail.addr ∨ n.next.addr = 0)) ∧
    (∀ (s s' : LState Nat) (v : Nat),
      popIterL s = PopRes.retry s' ∨ popIterL s = PopRes.done v s' → s'.tail = s.tail) := by
  constructor
  · intro s n hl
    constructor
    · intro hemp
      by_contra hcond
      exact popIterL_ne_empty s n hl hcond hemp
    · intro hor
      have hor' : s.head.addrEqual s.tail ∨ n.next.isNull := hor
      simp only [popIterL, hl]
      rw [if_pos hor']
  · intro s s' v hres
    rcases hres with hres | hres
    · exact absurd hres (popIterL_ne_retry s s')
    · exact popIterL_tail_done s s' v hres

/-- Witness for C2's corrected statement: the empty-condition iff at the
counterexample state, and tail preservation across a successful pop. -/
theorem c2_empty_or_witness :
    (popIterL c2state = PopRes.empty ↔
      c2state.head.addr = c2state.tail.addr ∨ (⟨⟨2, 0⟩, 0, 0⟩ : LNode Nat).next.addr = 0) ∧
    c2state2'.tail = c2state2.tail :=
  ⟨c2_empty_or.1 c2state ⟨⟨2, 0⟩, 0, 0⟩ (by decide),
   c2_empty_or.2 c2state2 c2state2' 5 (Or.inr (by decide))⟩

/-! ## Claim C3: the unbounded push's retry path -/

/-- Same shape as `c2state`: the loaded tail's `next` is non-null. -/
def c3state : LState Nat :=
  { heap := [some ⟨⟨2, 0⟩, 0, 0⟩, some ⟨⟨0, 0⟩, 5, 1⟩], head := ⟨1, 0⟩, tail := ⟨1, 1⟩ }

/-- Claim C3 (counterexample): when the loaded tail's `next` is non-null,
the push iteration retries with the state COMPLETELY unchanged — in
particular `_tail` still addresses node 1, not the successor node 2. The
source's `if(!next.isNull()) continue;` is a pure no-op spin with no
tail-advance CAS. -/
theorem c3_cex :
    pushIterL c3state ⟨3, 0⟩ = PushRes.retry c3state ∧
    (lookupL c3state.heap c3state.tail.addr).map (fun n => n.next.addr) = some 2 ∧
    c3state.tail.addr = 1 := by
  decide

/-- Claim C3 (corrected): in every iteration of the unbounded push loop in
which the loaded tail's next pointer is non-null, push retries from the
top leaving the entire queue state unchanged; it makes no attempt to
advance `_tail`. -/
theorem c3_spin (s : LState Nat) (np : TPtr) (n : LNode Nat)
    (hl : lookupL s.heap s.tail.addr = some n) (hnn : n.next.addr ≠ 0) :
    pushIterL s np = PushRes.retry s := by
  simp only [pushIterL, hl, TPtr.isNull]
  rw [if_pos (by simpa using hnn)]

/-- Witness for C3's corrected statement at the concrete state. -/
theorem c3_spin_witness : pushIterL c3state ⟨3, 0⟩ = PushRes.retry c3state :=
  c3_spin c3state ⟨3, 0⟩ ⟨⟨2, 0⟩, 0, 0⟩ (by decide) (by decide)

/-! ## Claim C4: reference-count initialisation and release -/

/-- A one-node heap whose node has reference count 1, as allocated. -/
def c4heap1 : LHeap Nat := [some ⟨⟨0, 0⟩, 5, 1⟩]

/-- The same heap after one `release`: count 0, node still live. -/
def c4heap0 : LHeap Nat := [some ⟨⟨0, 0⟩, 5, 0⟩]

/-- Claim C4 (counterexample): a node starts at count 1; the first
`release` brings the count to zero but does NOT free the node (because
`release` tests the value `fetch_sub` returned, i.e. the count before the
decrement); the node is freed only by the second `release`. The claim's
statement that the node is freed precisely on the call at which the count
reaches zero is false. -/
theorem c4_cex :
    (newLNode (5 : Nat)).ref = 1 ∧
    releaseH c4heap1 1 = some c4heap0 ∧
    lookupL c4heap0 1 = some ⟨⟨0, 0⟩, 5, 0⟩ ∧
    releaseH c4heap0 1 = some [none] ∧
    lookupL ([none] : LHeap Nat) 1 = none := by
  decide

/-- Claim C4 (corrected): the reference count starts at 1 at allocation;
`release` decrements the stored count, and the node is deleted precisely
on the release call whose pre-decrement count is zero — one call after
the count reaches zero. Calls with a positive pre-decrement count only
decrement and never free. -/
theorem c4_release :
    (∀ v : Nat, (newLNode v).ref = 1) ∧
    (∀ (h : LHeap Nat) (a : Nat) (n : LNode Nat), lookupL h a = some n →
      (n.ref ≠ 0 →
        releaseH h a = some (setL h a { n with ref := n.ref - 1 }) ∧
        lookupL (setL h a { n with ref := n.ref - 1 }) a = some { n with ref := n.ref - 1 }) ∧
      (n.ref = 0 →
        releaseH h a = some (freeL h a) ∧ lookupL (freeL h a) a = none)) := by
  refine ⟨fun v => rfl, fun h a n hl => ⟨fun hr => ⟨?_, lookupL_set_self hl _⟩,
    fun hr => ⟨?_, lookupL_free_self hl⟩⟩⟩
  · simp only [releaseH, hl, if_neg hr]
  · simp only [releaseH, hl, if_pos hr]

/-- Witness for C4's corrected statement at the concrete one-node heap. -/
theorem c4_release_witness :
    (newLNode (5 : Nat)).ref = 1 ∧
    releaseH c4heap1 1 = some (setL c4heap1 1 ⟨⟨0, 0⟩, 5, 0⟩) ∧
    lookupL (setL c4heap1 1 ⟨⟨0, 0⟩, 5, 0⟩) 1 = some ⟨⟨0, 0⟩, 5, 0⟩ :=
  ⟨c4_release.1 5, (c4_release.2 c4heap1 1 ⟨⟨0, 0⟩, 5, 1⟩ (by decide)).1 (by decide)⟩

/-! ## Claim C8: the tail-advance CAS and its assertion -/

/-- A minimal state whose `_tail` differs from a stale captured value. -/
def c8state : LState Nat :=
  { heap := [some ⟨⟨0, 0⟩, 0, 0⟩], head := ⟨1, 0⟩, tail := ⟨1, 0⟩ }

/-- Claim C8 (counterexample): if the tail-advance CAS of push is reached
with `_tail` no longer equal to the captured tail value, the CAS fails and
`assert(rst)` fires — the program aborts instead of completing the push
normally, contradicting the claim that failure of this CAS must not abort. -/
theorem c8_cex :
    pushFinishL c8state ⟨2, 0⟩ ⟨3, 0⟩ = PushRes.abort ∧ c8state.tail ≠ ⟨2, 0⟩ := by
  decide

/-- Claim C8 (corrected): within a push iteration the tail-advance CAS is
always reached with `_tail` still equal to the captured tail (nothing in
this implementation ever advances `_tail` on another thread's behalf), so
the assertion holds and the iteration never aborts; but whenever the CAS
compare would fail, the assertion aborts the program. -/
theorem c8_assert :
    (∀ (s : LState Nat) (np : TPtr), pushIterL s np ≠ PushRes.abort) ∧
    (∀ (s : LState Nat) (tl np : TPtr), s.tail ≠ tl → pushFinishL s tl np = PushRes.abort) := by
  constructor
  · intro s np h
    simp only [pushIterL] at h
    cases h1 : lookupL s.heap s.tail.addr with
    | none =>
      simp only [h1] at h
      exact PushRes.noConfusion h
    | some tlNode =>
      simp only [h1] at h
      by_cases hn : ¬ tlNode.next.isNull
      · rw [if_pos hn] at h
        exact PushRes.noConfusion h
      · rw [if_neg hn] at h
        cases h2 : lookupL s.heap (np.setVer (tlNode.next.vers + 1)).addr with
        | none =>
          simp only [h2] at h
          exact PushRes.noConfusion h
        | some npNode =>
          simp only [h2] at h
          cases h3 : lookupL (setL s.heap (np.setVer (tlNode.next.vers + 1)).addr
              { npNode with next := TPtr.mk' 0 (tlNode.next.vers + 1) }) s.tail.addr with
          | none =>
            simp only [h3] at h
            exact PushRes.noConfusion h
          | some tlNode2 =>
            simp only [h3] at h
            by_cases h4 : tlNode2.next = tlNode.next
            · rw [if_pos h4, pushFinishL, if_pos rfl] at h
              exact PushRes.noConfusion h
            · rw [if_neg h4] at h
              exact PushRes.noConfusion h
  · intro s tl np hne
    rw [pushFinishL, if_neg hne]

/-- Witness for C8's corrected statement at the concrete state. -/
theorem c8_assert_witness : pushFinishL c8state ⟨2, 0⟩ ⟨3, 0⟩ = PushRes.abort :=
  c8_assert.2 c8state ⟨2, 0⟩ ⟨3, 0⟩ (by decide)

/-! ## Claim C7: the bounded-queue constructor -/

theorem or_two_pow_sub_one {n k : Nat} (h1 : 2 ^ k ≤ n) (h2 : n < 2 ^ (k + 1)) :
    n ||| (2 ^ k - 1) = 2 ^ (k + 1) - 1 := by
  apply Nat.eq_of_testBit_eq
  intro i
  rw [Nat.testBit_or, Nat.testBit_two_pow_sub_one, Nat.testBit_two_pow_sub_one]
  rcases lt_trichotomy i k with hik | rfl | hik
  · simp [hik, Nat.lt_succ_of_lt hik]
  · have h2' : n < 2 * 2 ^ i := by
      rw [Nat.pow_succ] at h2
      omega
    have hdiv : n / 2 ^ i = 1 := Nat.div_eq_of_lt_le (by omega) (by omega)
    simp [Nat.testBit_to_div_mod, hdiv]
  · have hlt : n < 2 ^ i := lt_of_lt_of_le h2 (Nat.pow_le_pow_right (by norm_num) hik)
    simp [Nat.testBit_lt_two_pow hlt, Nat.not_lt.mpr (Nat.le_of_lt hik),
      Nat.not_lt.mpr hik]

theorem size_bounds {n : Nat} (hn : n ≠ 0) :
    2 ^ (n / 2).size ≤ n ∧ n < 2 ^ ((n / 2).size + 1) := by
  constructor
  · cases hk : (n / 2).size with
    | zero => simpa using Nat.one_le_iff_ne_zero.mpr hn
    | succ j =>
      have hj : 2 ^ j ≤ n / 2 := Nat.lt_size.mp (by omega)
      calc 2 ^ (j + 1) = 2 * 2 ^ j := by ring
        _ ≤ 2 * (n / 2) := by omega
        _ ≤ n := by omega
  · have h := Nat.lt_size_self (n / 2)
    have : n < 2 ^ (n / 2).size * 2 := (Nat.div_lt_iff_lt_mul (by norm_num)).mp h
    calc n < 2 ^ (n / 2).size * 2 := this
      _ = 2 ^ ((n / 2).size + 1) := (Nat.pow_succ 2 _).symm

theorem size_succ_div_two {n : Nat} (hn : n ≠ 0) : n.size = (n / 2).size + 1 := by
  obtain ⟨hlo, hhi⟩ := size_bounds hn
  exact Nat.le_antisymm (Nat.size_le.mpr hhi) (Nat.lt_size.mpr hlo)

/-- The mask loop computes `2 ^ size(ref) - 1` ORed onto the accumulator:
all bits from the reference value's highest set bit downwards. -/
theorem smearLoop_spec : ∀ (fuel mask ref : Nat), ref < 2 ^ fuel →
    smearLoop fuel mask ref = mask ||| (2 ^ ref.size - 1) := by
  intro fuel
  induction fuel with
  | zero =>
    intro mask ref href
    have : ref = 0 := by simpa using href
    subst this
    simp [smearLoop, Nat.size_zero]
  | succ f ih =>
    intro mask ref href
    rw [smearLoop]
    by_cases h0 : ref = 0
    · subst h0
      simp [Nat.size_zero]
    · rw [if_neg h0]
      have hhalf : ref / 2 < 2 ^ f := by
        have : ref < 2 ^ f * 2 := by
          calc ref < 2 ^ (f + 1) := href
            _ = 2 ^ f * 2 := Nat.pow_succ 2 f
        exact (Nat.div_lt_iff_lt_mul (by norm_num)).mpr this
      rw [ih (mask ||| ref) (ref / 2) hhalf, Nat.or_assoc]
      obtain ⟨hlo, hhi⟩ := size_bounds h0
      rw [or_two_pow_sub_one hlo hhi, ← size_succ_div_two h0]

/-- Claim C7 (counterexample): at requested capacity `2^63 + 1` the
`size_t` computation `_capacity = _capacityMask + 1` wraps to 0: the
constructed queue has effective capacity 0 (not the smallest power of two
greater than or equal to the request, which does not even exist in
`size_t`) and its mask `2^64 - 1` is not `capacity - 1`. -/
theorem c7_cex :
    (mkA Nat (2 ^ 63 + 1)).capacity = 0 ∧
    (mkA Nat (2 ^ 63 + 1)).capacityMask = 2 ^ 64 - 1 ∧
    (mkA Nat (2 ^ 63 + 1)).capacity < 2 ^ 63 + 1 := by
  decide

/-- Claim C7 (corrected): for every requested capacity `c` with
`1 ≤ c ≤ 2^63` (beyond which the size_t capacity computation wraps), the
constructor establishes: effective capacity `2 ^ size(c-1)`, which is the
smallest power of two greater than or equal to `c`; `capacityMask` equal
to capacity minus 1; both cursors zero; and every slot `i` pre-stamped
with `storeIndex = i` and `readIndex = InvalidPosition`. -/
theorem c7_ctor (c : Nat) (h1 : 1 ≤ c) (h2 : c ≤ 2 ^ 63) :
    (mkA Nat c).capacity = 2 ^ (c - 1).size ∧
    c ≤ (mkA Nat c).capacity ∧
    (∀ m : Nat, c ≤ 2 ^ m → (mkA Nat c).capacity ≤ 2 ^ m) ∧
    (mkA Nat c).capacityMask = (mkA Nat c).capacity - 1 ∧
    (mkA Nat c).head = 0 ∧ (mkA Nat c).tail = 0 ∧
    (mkA Nat c).nodes.length = (mkA Nat c).capacity ∧
    (∀ i, i < (mkA Nat c).capacity →
      (mkA Nat c).nodes[i]? = some ⟨none, InvalidPosition, i⟩) := by
  have hmref : (c + (U64 - 1)) % U64 = c - 1 := by
    have hc1 : c - 1 < U64 := by
      have h63 : (2 : Nat) ^ 63 < 2 ^ 64 := by norm_num
      simp only [U64]
      omega
    have hrw : c + (U64 - 1) = (c - 1) + 1 * U64 := by
      have : 1 ≤ U64 := Nat.one_le_two_pow
      omega
    rw [hrw, Nat.add_mul_mod_self_right, Nat.mod_eq_of_lt hc1]
  have hsmall : c - 1 < 2 ^ 64 := by
    have h63 : (2 : Nat) ^ 63 < 2 ^ 64 := by norm_num
    omega
  have hsize : (c - 1).size ≤ 63 := Nat.size_le.mpr (by omega)
  have hmask : smearLoop 64 0 ((c + (U64 - 1)) % U64) = 2 ^ (c - 1).size - 1 := by
    rw [hmref, smearLoop_spec 64 0 (c - 1) hsmall, Nat.zero_or]
  have hpow_le : 2 ^ (c - 1).size ≤ 2 ^ 63 := Nat.pow_le_pow_right (by norm_num) hsize
  have hU : 2 ^ (c - 1).size < U64 := by
    have h63 : (2 : Nat) ^ 63 < 2 ^ 64 := by norm_num
    simp only [U64]
    omega
  have hone : 1 ≤ 2 ^ (c - 1).size := Nat.one_le_two_pow
  have hcap : (mkA Nat c).capacity = 2 ^ (c - 1).size := by
    simp only [mkA]
    rw [hmask]
    have heq : 2 ^ (c - 1).size - 1 + 1 = 2 ^ (c - 1).size := by omega
    rw [heq]
    exact Nat.mod_eq_of_lt hU
  have hcapRaw : (smearLoop 64 0 ((c + (U64 - 1)) % U64) + 1) % U64 = 2 ^ (c - 1).size := hcap
  refine ⟨hcap, ?_, ?_, ?_, rfl, rfl, ?_, ?_⟩
  · rw [hcap]
    have := Nat.lt_size_self (c - 1)
    omega
  · intro m hm
    rw [hcap]
    exact Nat.pow_le_pow_right (by norm_num) (Nat.size_le.mpr (by omega))
  · rw [hcap]
    simp only [mkA]
    rw [hmask]
  · simp only [mkA, List.length_map, List.length_range]
  · intro i hi
    rw [hcap] at hi
    simp only [mkA, List.getElem?_map]
    rw [hcapRaw, List.getElem?_range hi]
    rfl

/-! ## The bounded-queue sequential invariant -/

/-- Sequential invariant of the bounded queue holding the values `l` (head
first): capacity is `2^k`, the mask is `2^k - 1`, the cursors differ by
`l.length`, slot `(head + j) % 2^k` holds the `j`-th stored value stamped
with its write cursor `head + j` in both sequence fields, and every other
slot is empty with `storeIndex` equal to the cursor of its next write and
a `readIndex` that is either the initial `InvalidPosition` stamp or the
stale cursor of its previous write. -/
structure InvA (k : Nat) (q : AQueue T) (l : List T) : Prop where
  cap : q.capacity = 2 ^ k
  mask : q.capacityMask = 2 ^ k - 1
  len : q.nodes.length = 2 ^ k
  tl : q.tail = q.head + l.length
  bound : l.length ≤ 2 ^ k
  filled : ∀ j v, l[j]? = some v →
    q.nodes[(q.head + j) % 2 ^ k]? = some ⟨some v, q.head + j, q.head + j⟩
  vacant : ∀ j, l.length ≤ j → j < 2 ^ k → ∃ r,
    q.nodes[(q.head + j) % 2 ^ k]? = some ⟨none, r, q.head + j⟩ ∧
    ((q.head + j < 2 ^ k ∧ r = InvalidPosition) ∨
      (2 ^ k ≤ q.head + j ∧ r = q.head + j - 2 ^ k))

/-- Slot indices of distinct in-window cursor offsets are distinct. -/
theorem slot_ne {base j1 j2 k : Nat} (hj1 : j1 < 2 ^ k) (hj2 : j2 < 2 ^ k) (hne : j1 ≠ j2) :
    (base + j1) % 2 ^ k ≠ (base + j2) % 2 ^ k := by
  intro h
  have hmod : j1 % 2 ^ k = j2 % 2 ^ k := Nat.ModEq.add_left_cancel' base h
  rw [Nat.mod_eq_of_lt hj1, Nat.mod_eq_of_lt hj2] at hmod
  exact hne hmod

/-- For requested capacities in the sane range, `capacity - 1` computed in
`size_t` arithmetic is the mathematical `c - 1`. -/
theorem capRef_eq (c : Nat) (h1 : 1 ≤ c) (h2 : c ≤ 2 ^ 63) :
    (c + (U64 - 1)) % U64 = c - 1 := by
  have hc1 : c - 1 < U64 := by
    have h63 : (2 : Nat) ^ 63 < 2 ^ 64 := by norm_num
    simp only [U64]
    omega
  have hrw : c + (U64 - 1) = (c - 1) + 1 * U64 := by
    have : 1 ≤ U64 := Nat.one_le_two_pow
    omega
  rw [hrw, Nat.add_mul_mod_self_right, Nat.mod_eq_of_lt hc1]

/-- The constructor either yields a queue of power-of-two capacity in the
invariant, or (when the reference value uses all 64 bits) a capacity-0
queue. -/
theorem mkA_cases (T : Type) (c : Nat) :
    (((c + (U64 - 1)) % U64).size = 64 ∧ (mkA T c).capacity = 0) ∨
    (∃ k, k = ((c + (U64 - 1)) % U64).size ∧ k ≤ 63 ∧ InvA k (mkA T c) ([] : List T)) := by
  have hr : (c + (U64 - 1)) % U64 < 2 ^ 64 := Nat.mod_lt _ (by norm_num [U64])
  have hmask : smearLoop 64 0 ((c + (U64 - 1)) % U64) =
      2 ^ ((c + (U64 - 1)) % U64).size - 1 := by
    rw [smearLoop_spec 64 0 _ hr, Nat.zero_or]
  set s := ((c + (U64 - 1)) % U64).size with hs
  have hone : 1 ≤ 2 ^ s := Nat.one_le_two_pow
  have hsle : s ≤ 64 := Nat.size_le.mpr hr
  have hcapRaw : (mkA T c).capacity = 2 ^ s % U64 := by
    simp only [mkA, hmask]
    have hstep : 2 ^ s - 1 + 1 = 2 ^ s := by omega
    rw [hstep]
  have hhead : (mkA T c).head = 0 := by simp only [mkA]
  have htail : (mkA T c).tail = 0 := by simp only [mkA]
  by_cases h64 : s = 64
  · left
    refine ⟨h64, ?_⟩
    rw [hcapRaw, h64]
    simp [U64]
  · right
    have hs63 : s ≤ 63 := by omega
    have hlt : 2 ^ s < U64 := by
      have hle : (2 : Nat) ^ s ≤ 2 ^ 63 := Nat.pow_le_pow_right (by norm_num) hs63
      have h63 : (2 : Nat) ^ 63 < 2 ^ 64 := by norm_num
      simp only [U64]
      omega
    have hcap : (mkA T c).capacity = 2 ^ s := by rw [hcapRaw, Nat.mod_eq_of_lt hlt]
    have hcap' : (smearLoop 64 0 ((c + (U64 - 1)) % U64) + 1) % U64 = 2 ^ s := hcap
    have hnodes : ∀ i, i < 2 ^ s →
        (mkA T c).nodes[i]? = some ⟨none, InvalidPosition, i⟩ := by
      intro i hi
      simp only [mkA, List.getElem?_map, hcap']
      rw [List.getElem?_range hi]
      rfl
    refine ⟨s, rfl, hs63, hcap, ?_, ?_, ?_, Nat.zero_le _, ?_, ?_⟩
    · simp only [mkA]
      rw [hmask]
    · simp only [mkA, List.length_map, List.length_range]
      rw [hcap']
    · rw [hhead, htail]
      rfl
    · intro j v hj
      simp at hj
    · intro j hj0 hj
      refine ⟨InvalidPosition, ?_, Or.inl ⟨by rw [hhead, Nat.zero_add]; exact hj, rfl⟩⟩
      rw [hhead, Nat.zero_add, Nat.mod_eq_of_lt hj]
      exact hnodes j hj

/-- A successful bounded push: appends the value, advances only the tail. -/
theorem pushA_inv_success {k : Nat} {q : AQueue T} {l : List T} (v : T) (hInv : InvA k q l)
    (hfull : l.length < 2 ^ k) (hbnd : q.tail + 1 < U64) :
    ∃ q', pushA q v = some (true, q') ∧ InvA k q' (l ++ [v]) ∧
      q'.head = q.head ∧ q'.tail = q.tail + 1 := by
  obtain ⟨r, hslot, hr⟩ := hInv.vacant l.length (le_refl _) hfull
  have hidx : q.tail &&& q.capacityMask = (q.head + l.length) % 2 ^ k := by
    rw [hInv.mask, Nat.and_pow_two_sub_one_eq_mod, hInv.tl]
  have hidxlt : (q.head + l.length) % 2 ^ k < q.nodes.length := by
    rw [hInv.len]
    exact Nat.mod_lt _ (Nat.two_pow_pos k)
  have hmod : (q.tail + 1) % U64 = q.tail + 1 := Nat.mod_eq_of_lt hbnd
  refine ⟨{ q with
      tail := (q.tail + 1) % U64,
      nodes := q.nodes.set ((q.head + l.length) % 2 ^ k)
        ⟨some v, q.tail, q.head + l.length⟩ }, ?_, ?_, rfl, hmod⟩
  · simp only [pushA, hidx, hslot]
    rw [if_neg (by simp [hInv.tl]), if_pos trivial]
  · constructor
    · exact hInv.cap
    · exact hInv.mask
    · show (q.nodes.set _ _).length = 2 ^ k
      rw [List.length_set]
      exact hInv.len
    · show (q.tail + 1) % U64 = q.head + (l ++ [v]).length
      rw [hmod, hInv.tl, List.length_append]
      simp [Nat.add_assoc]
    · rw [List.length_append]
      simpa using hfull
    · intro j w hjw
      rcases Nat.lt_or_ge j l.length with hj | hj
      · have hold : l[j]? = some w := by
          rwa [List.getElem?_append_left hj] at hjw
        have hne : (q.head + j) % 2 ^ k ≠ (q.head + l.length) % 2 ^ k :=
          slot_ne (lt_of_lt_of_le hj (le_of_lt hfull)) hfull (Nat.ne_of_lt hj)
        show (q.nodes.set ((q.head + l.length) % 2 ^ k) _)[(q.head + j) % 2 ^ k]? = _
        rw [List.getElem?_set_ne (Ne.symm hne)]
        exact hInv.filled j w hold
      · have hj' : j = l.length := by
          have hlt : j < (l ++ [v]).length := (List.getElem?_eq_some_iff.mp hjw).1
          rw [List.length_append] at hlt
          simp at hlt
          omega
        subst hj'
        have hw : v = w := by
          rw [List.getElem?_append_right (le_refl _)] at hjw
          simpa using hjw
        subst hw
        show (q.nodes.set ((q.head + l.length) % 2 ^ k) _)[(q.head + l.length) % 2 ^ k]? = _
        rw [List.getElem?_set_self hidxlt, hInv.tl]
    · intro j hjlo hjhi
      have hjlo' : l.length < j := by
        rw [List.length_append] at hjlo
        simpa [Nat.succ_le_iff] using hjlo
      obtain ⟨r', hslot', hr'⟩ := hInv.vacant j (le_of_lt hjlo') hjhi
      have hne : (q.head + j) % 2 ^ k ≠ (q.head + l.length) % 2 ^ k :=
        slot_ne hjhi hfull (Nat.ne_of_gt hjlo')
      refine ⟨r', ?_, hr'⟩
      show (q.nodes.set ((q.head + l.length) % 2 ^ k) _)[(q.head + j) % 2 ^ k]? = _
      rw [List.getElem?_set_ne (Ne.symm hne)]
      exact hslot'

/-- A push against a full bounded queue: returns `false`, state unchanged. -/
theorem pushA_inv_full {k : Nat} {q : AQueue T} {l : List T} (v : T) (hInv : InvA k q l)
    (hfull : l.length = 2 ^ k) : pushA q v = some (false, q) := by
  have hpos : 0 < l.length := by
    rw [hfull]
    exact Nat.two_pow_pos k
  have h0 : l[0]? = some (l.get ⟨0, hpos⟩) := List.getElem?_eq_getElem hpos
  have hsl := hInv.filled 0 _ h0
  rw [Nat.add_zero] at hsl
  have hidx : q.tail &&& q.capacityMask = q.head % 2 ^ k := by
    rw [hInv.mask, Nat.and_pow_two_sub_one_eq_mod, hInv.tl, hfull, Nat.add_mod_right]
  simp only [pushA, hidx, hsl]
  rw [if_pos (by rw [hInv.tl, hfull]; have := Nat.two_pow_pos k; omega)]

/-- A successful bounded pop: removes the head value, advances only head. -/
theorem popA_inv_success {k : Nat} {q : AQueue T} {l : List T} {v : T}
    (hInv : InvA k q (v :: l)) (hbnd : q.head + 2 ^ k < U64) :
    ∃ q', popA q = some (true, some v, q') ∧ InvA k q' l ∧
      q'.head = q.head + 1 ∧ q'.tail = q.tail := by
  have hpow : 0 < 2 ^ k := Nat.two_pow_pos k
  have hsl := hInv.filled 0 v (by simp)
  rw [Nat.add_zero] at hsl
  have hidx : q.head &&& q.capacityMask = q.head % 2 ^ k := by
    rw [hInv.mask, Nat.and_pow_two_sub_one_eq_mod]
  have hidxlt : q.head % 2 ^ k < q.nodes.length := by
    rw [hInv.len]
    exact Nat.mod_lt _ hpow
  have hh1 : (q.head + 1) % U64 = q.head + 1 := Nat.mod_eq_of_lt (by omega)
  have hhc : (q.head + q.capacity) % U64 = q.head + 2 ^ k := by
    rw [hInv.cap]
    exact Nat.mod_eq_of_lt hbnd
  have hlen : (v :: l).length = l.length + 1 := rfl
  refine ⟨{ q with
      head := (q.head + 1) % U64,
      nodes := q.nodes.set (q.head % 2 ^ k)
        ⟨none, q.head, (q.head + q.capacity) % U64⟩ }, ?_, ?_, hh1, rfl⟩
  · simp only [popA, hidx, hsl]
    rw [if_neg (by simp), if_pos trivial]
  · constructor
    · exact hInv.cap
    · exact hInv.mask
    · rw [List.length_set]
      exact hInv.len
    · show q.tail = (q.head + 1) % U64 + l.length
      rw [hh1, hInv.tl, hlen]
      omega
    · have := hInv.bound
      rw [hlen] at this
      omega
    · intro j w hjw
      have hjlt : j < l.length := (List.getElem?_eq_some_iff.mp hjw).1
      have hold := hInv.filled (j + 1) w (by simpa using hjw)
      have hne : (q.head + (j + 1)) % 2 ^ k ≠ q.head % 2 ^ k := by
        have hb := hInv.bound
        rw [hlen] at hb
        have h0 := @slot_ne q.head (j + 1) 0 k (by omega) (by omega) (by omega)
        simpa using h0
      show (q.nodes.set (q.head % 2 ^ k) _)[((q.head + 1) % U64 + j) % 2 ^ k]? = _
      rw [hh1]
      have harith : q.head + 1 + j = q.head + (j + 1) := by omega
      rw [harith]
      rw [List.getElem?_set_ne (Ne.symm hne)]
      exact hold
    · intro j hjlo hjhi
      rcases Nat.lt_or_ge j (2 ^ k - 1) with hj | hj
      · -- untouched vacant slot
        obtain ⟨r', hslot', hr'⟩ := hInv.vacant (j + 1) (by rw [hlen]; omega) (by omega)
        have hne : (q.head + (j + 1)) % 2 ^ k ≠ q.head % 2 ^ k := by
          have h0 := @slot_ne q.head (j + 1) 0 k (by omega) (by omega) (by omega)
          simpa using h0
        refine ⟨r', ?_, ?_⟩
        · show (q.nodes.set (q.head % 2 ^ k) _)[((q.head + 1) % U64 + j) % 2 ^ k]? = _
          rw [hh1]
          have harith : q.head + 1 + j = q.head + (j + 1) := by omega
          rw [harith, List.getElem?_set_ne (Ne.symm hne)]
          exact hslot'
        · rw [hh1]
          have harith : q.head + 1 + j = q.head + (j + 1) := by omega
          rw [harith]
          exact hr'
      · -- the slot just vacated by this pop
        have hj' : j = 2 ^ k - 1 := by omega
        subst hj'
        refine ⟨q.head, ?_, ?_⟩
        · show (q.nodes.set (q.head % 2 ^ k) _)[((q.head + 1) % U64 + (2 ^ k - 1)) % 2 ^ k]? = _
          rw [hh1]
          have harith : q.head + 1 + (2 ^ k - 1) = q.head + 2 ^ k := by omega
          rw [harith, Nat.add_mod_right, List.getElem?_set_self hidxlt, hhc]
        · rw [hh1]
          have harith : q.head + 1 + (2 ^ k - 1) = q.head + 2 ^ k := by omega
          rw [harith]
          exact Or.inr ⟨by omega, by omega⟩

/-- A pop from an empty bounded queue: returns `false`, state unchanged. -/
theorem popA_inv_empty {k : Nat} {q : AQueue T} (hInv : InvA k q ([] : List T))
    (hbnd : q.head + 2 ^ k < U64) : popA q = some (false, none, q) := by
  have hpow : 0 < 2 ^ k := Nat.two_pow_pos k
  obtain ⟨r, hslot, hr⟩ := hInv.vacant 0 (le_refl _) hpow
  simp only [Nat.add_zero] at hslot hr
  have hidx : q.head &&& q.capacityMask = q.head % 2 ^ k := by
    rw [hInv.mask, Nat.and_pow_two_sub_one_eq_mod]
  have hrne : r ≠ q.head := by
    rcases hr with ⟨hlt, hri⟩ | ⟨hle, hri⟩
    · rw [hri]
      simp only [InvalidPosition, U64] at hbnd ⊢
      omega
    · rw [hri]
      omega
  simp only [popA, hidx, hslot]
  rw [if_pos hrne]

/-- The freshly constructed bounded queue satisfies the invariant for
requested capacities in the sane range. -/
theorem invA_mkA (T : Type) (c : Nat) (h1 : 1 ≤ c) (h2 : c ≤ 2 ^ 63) :
    InvA (c - 1).size (mkA T c) ([] : List T) := by
  rcases mkA_cases T c with ⟨h64, _⟩ | ⟨k, hkeq, _, hInv⟩
  · exfalso
    rw [capRef_eq c h1 h2] at h64
    have hle : (c - 1).size ≤ 63 := Nat.size_le.mpr (by omega)
    omega
  · rw [capRef_eq c h1 h2] at hkeq
    rwa [hkeq] at hInv

/-- The head cursor of a fresh bounded queue is zero. -/
theorem mkA_head (T : Type) (c : Nat) : (mkA T c).head = 0 := by
  simp only [mkA]

/-- The tail cursor of a fresh bounded queue is zero. -/
theorem mkA_tail (T : Type) (c : Nat) : (mkA T c).tail = 0 := by
  simp only [mkA]

/-- Pushing a list into a bounded queue with room for all of it succeeds
throughout and appends the values. -/
theorem pushSeqA_inv : ∀ (vs : List T) {k : Nat} {q : AQueue T} {l : List T},
    InvA k q l → l.length + vs.length ≤ 2 ^ k → q.head + 2 ^ k < U64 →
    ∃ q', pushSeqA q vs = some (List.replicate vs.length true, q') ∧
      InvA k q' (l ++ vs) ∧ q'.head = q.head ∧ q'.tail = q.tail + vs.length := by
  intro vs
  induction vs with
  | nil =>
    intro k q l hInv hroom hU
    exact ⟨q, rfl, by simpa using hInv, rfl, rfl⟩
  | cons v vs ih =>
    intro k q l hInv hroom hU
    have hfull : l.length < 2 ^ k := by
      have := hroom
      simp [List.length_cons] at this
      omega
    have hbnd : q.tail + 1 < U64 := by
      rw [hInv.tl]
      omega
    obtain ⟨q1, hpush, hInv1, hh1, ht1⟩ := pushA_inv_success v hInv hfull hbnd
    have hroom1 : (l ++ [v]).length + vs.length ≤ 2 ^ k := by
      simp only [List.length_append, List.length_singleton]
      simp only [List.length_cons] at hroom
      omega
    obtain ⟨q2, hseq, hInv2, hh2, ht2⟩ := ih hInv1 hroom1 (by rw [hh1]; exact hU)
    refine ⟨q2, ?_, ?_, ?_, ?_⟩
    · simp only [pushSeqA, hpush, hseq, List.length_cons, List.replicate_succ]
    · rwa [List.append_assoc, List.singleton_append] at hInv2
    · rw [hh2, hh1]
    · rw [ht2, ht1, List.length_cons]
      omega

/-- Draining a bounded queue holding `l` pops exactly `l` in order. -/
theorem popSeqA_inv : ∀ (l : List T) {k : Nat} {q : AQueue T},
    InvA k q l → q.head + l.length + 2 ^ k ≤ U64 →
    ∃ q', popSeqA q l.length = some (l, q') ∧ InvA k q' ([] : List T) ∧
      q'.head = q.head + l.length ∧ q'.tail = q.tail := by
  intro l
  induction l with
  | nil =>
    intro k q hInv hU
    exact ⟨q, rfl, hInv, by simp, rfl⟩
  | cons v l ih =>
    intro k q hInv hU
    have hbnd : q.head + 2 ^ k < U64 := by
      simp [List.length_cons] at hU
      omega
    obtain ⟨q1, hpop, hInv1, hh1, ht1⟩ := popA_inv_success hInv hbnd
    have hU1 : q1.head + l.length + 2 ^ k ≤ U64 := by
      rw [hh1]
      simp [List.length_cons] at hU
      omega
    obtain ⟨q2, hseq, hInv2, hh2, ht2⟩ := ih hInv1 hU1
    refine ⟨q2, ?_, hInv2, ?_, ?_⟩
    · simp only [List.length_cons, popSeqA, hpop, hseq]
    · rw [hh2, hh1, List.length_cons]
      omega
    · rw [ht2, ht1]

/-- Claim C6 (confirmed): for a bounded queue of effective capacity
`C = 2^k` freshly constructed from a requested capacity in `[1, 2^63]`,
`C` consecutive pushes all return `true`; the `(C+1)`-th push returns
`false` immediately with the state unchanged; after one successful pop
(yielding the first pushed value) the next push returns `true` again; and
in general a push returns `false` exactly when the claimed slot's
`storeIndex` differs from the captured tail cursor. -/
theorem c6_capacity (c : Nat) (h1 : 1 ≤ c) (h2 : c ≤ 2 ^ 63) (vs : List Nat)
    (hlen : vs.length = (mkA Nat c).capacity) (w w2 : Nat) :
    (∃ q1, pushSeqA (mkA Nat c) vs = some (List.replicate vs.length true, q1) ∧
      pushA q1 w = some (false, q1) ∧
      ∃ q2, popA q1 = some (true, some vs.headI, q2) ∧
        ∃ q3, pushA q2 w2 = some (true, q3)) ∧
    (∀ (q : AQueue Nat) (v : Nat) (node : ANode Nat),
      q.nodes[q.tail &&& q.capacityMask]? = some node →
      (pushA q v = some (false, q) ↔ node.storeIndex ≠ q.tail)) := by
  constructor
  · have hInv0 := invA_mkA Nat c h1 h2
    have hcap : (mkA Nat c).capacity = 2 ^ (c - 1).size := hInv0.cap
    have hk63 : (c - 1).size ≤ 63 := Nat.size_le.mpr (by omega)
    have hpk : 2 ^ (c - 1).size ≤ 2 ^ 63 := Nat.pow_le_pow_right (by norm_num) hk63
    have h64 : (2 : Nat) ^ 63 < 2 ^ 64 := by norm_num
    have hU64 : (2 : Nat) ^ 63 < U64 := by simp only [U64]; omega
    rw [hcap] at hlen
    have hU : (mkA Nat c).head + 2 ^ (c - 1).size < U64 := by
      rw [mkA_head]
      simp only [U64]
      omega
    obtain ⟨q1, hseq, hInv1, hh1, ht1⟩ :=
      pushSeqA_inv vs hInv0 (by simpa using hlen.le) hU
    rw [List.nil_append] at hInv1
    refine ⟨q1, hseq, pushA_inv_full w hInv1 hlen, ?_⟩
    rcases vs with _ | ⟨v0, rest⟩
    · exfalso
      have := Nat.two_pow_pos (c - 1).size
      simp at hlen
      omega
    · have hbnd1 : q1.head + 2 ^ (c - 1).size < U64 := by
        rw [hh1, mkA_head]
        simp only [U64]
        omega
      obtain ⟨q2, hpop, hInv2, hh2, ht2⟩ := popA_inv_success hInv1 hbnd1
      refine ⟨q2, by simpa using hpop, ?_⟩
      have hrest : rest.length < 2 ^ (c - 1).size := by
        have := hlen
        simp [List.length_cons] at this
        omega
      have hbnd2 : q2.tail + 1 < U64 := by
        rw [ht2, ht1, mkA_tail]
        simp only [List.length_cons] at hlen ⊢
        simp only [U64]
        omega
      obtain ⟨q3, hpush3, _, _, _⟩ := pushA_inv_success w2 hInv2 hrest hbnd2
      exact ⟨q3, hpush3⟩
  · intro q v node hnode
    constructor
    · intro hfalse heq
      simp only [pushA, hnode] at hfalse
      rw [if_neg (fun hn => hn heq), if_pos trivial] at hfalse
      simp at hfalse
    · intro hne
      simp only [pushA, hnode]
      rw [if_pos hne]

/-- Witness for C6 at requested capacity 1 (effective capacity 1): one
push succeeds, the second returns full, a pop yields the value, and a
further push succeeds. -/
theorem c6_capacity_witness :
    (∃ q1, pushSeqA (mkA Nat 1) [42] = some (List.replicate 1 true, q1) ∧
      pushA q1 9 = some (false, q1) ∧
      ∃ q2, popA q1 = some (true, some 42, q2) ∧
        ∃ q3, pushA q2 77 = some (true, q3)) ∧
    (∀ (q : AQueue Nat) (v : Nat) (node : ANode Nat),
      q.nodes[q.tail &&& q.capacityMask]? = some node →
      (pushA q v = some (false, q) ↔ node.storeIndex ≠ q.tail)) := by
  have h := c6_capacity 1 (by decide) (by norm_num) [42] (by decide) 9 77
  simpa using h

/-- Witness for C7's corrected statement at the spec's own example,
requested capacity 5 (effective capacity 8, mask 7). -/
theorem c7_ctor_witness :
    (mkA Nat 5).capacity = 2 ^ (5 - 1).size ∧
    5 ≤ (mkA Nat 5).capacity ∧
    (∀ m : Nat, 5 ≤ 2 ^ m → (mkA Nat 5).capacity ≤ 2 ^ m) ∧
    (mkA Nat 5).capacityMask = (mkA Nat 5).capacity - 1 ∧
    (mkA Nat 5).head = 0 ∧ (mkA Nat 5).tail = 0 ∧
    (mkA Nat 5).nodes.length = (mkA Nat 5).capacity ∧
    (∀ i, i < (mkA Nat 5).capacity →
      (mkA Nat 5).nodes[i]? = some ⟨none, InvalidPosition, i⟩) :=
  c7_ctor 5 (by decide) (by norm_num)

/-! ## The list-based queue sequential invariant -/

/-- Payload of the node at address `a`, when live. -/
def dataOf (h : LHeap T) (a : Nat) : Option T := (lookupL h a).map (·.data)

/-- Reference count of the node at address `a`, when live. -/
def refOf (h : LHeap T) (a : Nat) : Option Nat := (lookupL h a).map (·.ref)

/-- Address part of the `next` pointer of the node at address `a`. -/
def nextAddrOf (h : LHeap T) (a : Nat) : Option Nat := (lookupL h a).map (·.next.addr)

/-- The linked chain anchored at the live node `a` runs through the
addresses `c` carrying the payloads `l` (each interior node at reference
count 1) and terminates in a null `next`. -/
def chainOk (h : LHeap T) : Nat → List Nat → List T → Prop
  | a, [], [] => nextAddrOf h a = some 0
  | _, [], _ :: _ => False
  | _, _ :: _, [] => False
  | a, b :: c, v :: l =>
    nextAddrOf h a = some b ∧ dataOf h b = some v ∧ refOf h b = some 1 ∧ chainOk h b c l

def chainOkDec (h : LHeap T) [DecidableEq T] :
    (a : Nat) → (c : List Nat) → (l : List T) → Decidable (chainOk h a c l)
  | a, [], [] => inferInstanceAs (Decidable (nextAddrOf h a = some 0))
  | _, [], _ :: _ => inferInstanceAs (Decidable False)
  | _, _ :: _, [] => inferInstanceAs (Decidable False)
  | a, b :: c, v :: l =>
    haveI : Decidable (chainOk h b c l) := chainOkDec h b c l
    inferInstanceAs (Decidable (nextAddrOf h a = some b ∧ dataOf h b = some v ∧
      refOf h b = some 1 ∧ chainOk h b c l))

instance (h : LHeap T) [DecidableEq T] (a : Nat) (c : List Nat) (l : List T) :
    Decidable (chainOk h a c l) := chainOkDec h a c l

/-- The last address of a chain anchored at `a` through `c`. -/
def lastAddr : Nat → List Nat → Nat
  | a, [] => a
  | _, b :: c => lastAddr b c

theorem lastAddr_mem (a : Nat) (c : List Nat) : lastAddr a c ∈ a :: c := by
  induction c generalizing a with
  | nil => simp [lastAddr]
  | cons b c ih =>
    rw [lastAddr]
    have := ih b
    simp at this ⊢
    tauto

theorem lastAddr_append (a x : Nat) (c : List Nat) : lastAddr a (c ++ [x]) = x := by
  induction c generalizing a with
  | nil => rfl
  | cons b c ih => exact ih b

/-- Appending cells to the heap does not change lookups of in-range
addresses. -/
theorem lookupL_append_le (h h2 : LHeap T) (a : Nat) (ha : a ≤ h.length) :
    lookupL (h ++ h2) a = lookupL h a := by
  rcases Nat.eq_zero_or_pos a with h0 | h0
  · subst h0
    rfl
  · rw [lookupL, if_neg (by omega), lookupL, if_neg (by omega),
      List.getElem?_append_left (by omega)]

/-- The sequential invariant of a `list_based::Queue`: `head` addresses a
live sentinel at reference count 0, the chain through `c` carries the
queue contents `l`, `tail` addresses the last chain node, all chain
addresses are distinct and in range, and every heap cell outside the chain
has been freed. -/
def InvL (s : LState T) (c : List Nat) (l : List T) : Prop :=
  s.head.addr ≠ 0 ∧
  refOf s.heap s.head.addr = some 0 ∧
  chainOk s.heap s.head.addr c l ∧
  s.tail.addr = lastAddr s.head.addr c ∧
  (s.head.addr :: c).Nodup ∧
  (∀ a ∈ s.head.addr :: c, a ≤ s.heap.length) ∧
  (∀ i, i < s.heap.length → (i + 1 ∈ s.head.addr :: c) ∨ s.heap[i]? = some none)

theorem chainOk_nil_right {h : LHeap T} {a : Nat} {c : List Nat}
    (hc : chainOk h a c ([] : List T)) : c = [] := by
  cases c with
  | nil => rfl
  | cons b c => exact absurd hc (by rw [chainOk]; exact id)

theorem chainOk_cons_shape {h : LHeap T} {a : Nat} {c : List Nat} {v : T} {l : List T}
    (hc : chainOk h a c (v :: l)) : ∃ b c', c = b :: c' := by
  cases c with
  | nil => exact absurd hc (by rw [chainOk]; exact id)
  | cons b c => exact ⟨b, c, rfl⟩

theorem chainOk_mem_ne_zero {h : LHeap T} :
    ∀ {a : Nat} {c : List Nat} {l : List T}, chainOk h a c l → ∀ b ∈ c, b ≠ 0 := by
  intro a c
  induction c generalizing a with
  | nil => intro l _ b hb; simp at hb
  | cons b0 c ih =>
    intro l hc b hb
    cases l with
    | nil => exact absurd hc (by rw [chainOk]; exact id)
    | cons v l =>
      rw [chainOk] at hc
      rcases List.mem_cons.mp hb with hb0 | hbc
      · subst hb0
        intro h0
        have := hc.2.1
        rw [h0] at this
        simp [dataOf, lookupL] at this
      · exact ih hc.2.2.2 b hbc

theorem chainOk_last {h : LHeap T} :
    ∀ {a : Nat} {c : List Nat} {l : List T}, chainOk h a c l →
    ∃ n, lookupL h (lastAddr a c) = some n ∧ n.next.addr = 0 := by
  intro a c
  induction c generalizing a with
  | nil =>
    intro l hc
    cases l with
    | nil =>
      rw [chainOk] at hc
      rw [nextAddrOf] at hc
      rcases Option.map_eq_some'.mp hc with ⟨n, hn, hn0⟩
      exact ⟨n, hn, hn0⟩
    | cons v l => exact absurd hc (by rw [chainOk]; exact id)
  | cons b c ih =>
    intro l hc
    cases l with
    | nil => exact absurd hc (by rw [chainOk]; exact id)
    | cons v l =>
      rw [chainOk] at hc
      exact ih hc.2.2.2

/-- `chainOk` only inspects the `next` field of each chain anchor and the
payload/count of each interior node, so it transfers to any heap agreeing
on those projections. -/
theorem chainOk_congr {h h' : LHeap T} :
    ∀ {a : Nat} {c : List Nat} {l : List T}, chainOk h a c l →
    (∀ x ∈ a :: c, nextAddrOf h' x = nextAddrOf h x) →
    (∀ x ∈ c, dataOf h' x = dataOf h x ∧ refOf h' x = refOf h x) →
    chainOk h' a c l := by
  intro a c
  induction c generalizing a with
  | nil =>
    intro l hc hA hB
    cases l with
    | nil =>
      rw [chainOk] at hc ⊢
      rw [hA a (by simp)]
      exact hc
    | cons v l => exact absurd hc (by rw [chainOk]; exact id)
  | cons b c ih =>
    intro l hc hA hB
    cases l with
    | nil => exact absurd hc (by rw [chainOk]; exact id)
    | cons v l =>
      rw [chainOk] at hc ⊢
      obtain ⟨h1, h2, h3, h4⟩ := hc
      refine ⟨?_, ?_, ?_, ?_⟩
      · rw [hA a (by simp)]
        exact h1
      · rw [(hB b (by simp)).1]
        exact h2
      · rw [(hB b (by simp)).2]
        exact h3
      · exact ih h4 (fun x hx => hA x (by simp at hx ⊢; tauto))
          (fun x hx => hB x (by simp [hx]))

/-- Extending the chain with a freshly linked node. -/
theorem chainOk_snoc {h h' : LHeap T} {anew : Nat} {v : T} :
    ∀ (c : List Nat) (l : List T) (a : Nat), chainOk h a c l →
    (a :: c).Nodup →
    (∀ x ∈ a :: c, x ≠ lastAddr a c →
      dataOf h' x = dataOf h x ∧ refOf h' x = refOf h x ∧
      nextAddrOf h' x = nextAddrOf h x) →
    nextAddrOf h' (lastAddr a c) = some anew →
    dataOf h' (lastAddr a c) = dataOf h (lastAddr a c) →
    refOf h' (lastAddr a c) = refOf h (lastAddr a c) →
    dataOf h' anew = some v → refOf h' anew = some 1 → nextAddrOf h' anew = some 0 →
    chainOk h' a (c ++ [anew]) (l ++ [v]) := by
  intro c
  induction c with
  | nil =>
    intro l a hc hnd hkeep hlastn hlastd hlastr hnewd hnewr hnewn
    cases l with
    | nil =>
      show chainOk h' a [anew] [v]
      rw [chainOk]
      exact ⟨hlastn, hnewd, hnewr, hnewn⟩
    | cons v0 l => exact absurd hc (by rw [chainOk]; exact id)
  | cons b c ih =>
    intro l a hc hnd hkeep hlastn hlastd hlastr hnewd hnewr hnewn
    cases l with
    | nil => exact absurd hc (by rw [chainOk]; exact id)
    | cons v0 l =>
      rw [chainOk] at hc
      obtain ⟨hab, hbd, hbr, hrest⟩ := hc
      have hlast_eq : lastAddr a (b :: c) = lastAddr b c := rfl
      have hmemlast : lastAddr b c ∈ b :: c := lastAddr_mem b c
      have hanotin : a ∉ b :: c := (List.nodup_cons.mp hnd).1
      have hane : a ≠ lastAddr a (b :: c) := by
        rw [hlast_eq]
        intro he
        rw [← he] at hmemlast
        exact hanotin hmemlast
      show chainOk h' a (b :: (c ++ [anew])) (v0 :: (l ++ [v]))
      rw [chainOk]
      refine ⟨?_, ?_, ?_, ?_⟩
      · rw [(hkeep a (by simp) hane).2.2]
        exact hab
      · by_cases hbl : b = lastAddr a (b :: c)
        · rw [← hbl] at hlastd
          rw [hlastd]
          exact hbd
        · rw [(hkeep b (by simp) hbl).1]
          exact hbd
      · by_cases hbl : b = lastAddr a (b :: c)
        · rw [← hbl] at hlastr
          rw [hlastr]
          exact hbr
        · rw [(hkeep b (by simp) hbl).2.1]
          exact hbr
      · exact ih l b hrest (List.nodup_cons.mp hnd).2
          (fun x hx hxl => hkeep x (by simp at hx ⊢; tauto) hxl)
          hlastn hlastd hlastr hnewd hnewr hnewn

/-! ## Evaluating the list-queue operations under the invariant -/

/-- In a state whose tail node has a null `next`, a push iteration links
the node at `np` behind the tail and advances `_tail` to it. -/
theorem pushIterL_eval (s : LState T) (np : TPtr) (tn npn : LNode T)
    (htn : lookupL s.heap s.tail.addr = some tn)
    (hnull : tn.next.addr = 0)
    (hnp : lookupL s.heap np.addr = some npn)
    (hne : np.addr ≠ s.tail.addr) :
    pushIterL s np = PushRes.done
      { heap := setL (setL s.heap np.addr ⟨⟨0, (tn.next.vers + 1) % P16⟩, npn.data, npn.ref⟩)
          s.tail.addr ⟨⟨np.addr, (tn.next.vers + 1) % P16⟩, tn.data, tn.ref⟩,
        head := s.head, tail := ⟨np.addr, (tn.next.vers + 1) % P16⟩ } := by
  have hnz : np.addr ≠ 0 := lookupL_ne_zero hnp
  have htnz : s.tail.addr ≠ 0 := lookupL_ne_zero htn
  simp only [pushIterL, htn, TPtr.setVer, TPtr.mk', Nat.zero_mod]
  rw [if_neg (by simp [TPtr.isNull, hnull])]
  simp only [hnp]
  have hstep : lookupL (setL s.heap np.addr
      ⟨⟨0, (tn.next.vers + 1) % P16⟩, npn.data, npn.ref⟩) s.tail.addr = some tn := by
    rw [lookupL_set_ne _ _ _ _ (Ne.symm hne) hnz htnz]
    exact htn
  simp only [hstep]
  simp [pushFinishL]

/-- `push` under the invariant: allocates one node at the fresh address,
links it behind the tail, and advances `_tail`; the queue now holds
`l ++ [v]`. -/
theorem pushL_inv (s : LState T) (c : List Nat) (l : List T) (v : T)
    (hInv : InvL s c l) (hlen : s.heap.length + 1 < P48) :
    ∃ s', pushL s v = some s' ∧ InvL s' (c ++ [s.heap.length + 1]) (l ++ [v]) ∧
      s'.heap.length = s.heap.length + 1 ∧ s'.head = s.head ∧
      s'.tail.addr = s.heap.length + 1 := by
  obtain ⟨hne0, href, hchain, htail, hnodup, hbound, hcover⟩ := hInv
  obtain ⟨tn, htn0, htnnull⟩ := chainOk_last hchain
  have htn : lookupL s.heap s.tail.addr = some tn := by rw [htail]; exact htn0
  have htnz : s.tail.addr ≠ 0 := lookupL_ne_zero htn
  have htailmem : s.tail.addr ∈ s.head.addr :: c := by rw [htail]; exact lastAddr_mem _ _
  have htail_le : s.tail.addr ≤ s.heap.length := hbound _ htailmem
  have hmodp : TPtr.mk' (s.heap.length + 1) 0 = (⟨s.heap.length + 1, 0⟩ : TPtr) := by
    rw [TPtr.mk', Nat.mod_eq_of_lt hlen]
    rfl
  have hheadle : s.head.addr ≤ s.heap.length := hbound _ (by simp)
  -- the heap right after allocation
  have htn1 : lookupL (s.heap ++ [some (newLNode v)]) s.tail.addr = some tn :=
    lookupL_append htn
  have hnp1 : lookupL (s.heap ++ [some (newLNode v)]) (s.heap.length + 1) =
      some (newLNode v) := lookupL_concat_fresh _ _
  have hnea : s.heap.length + 1 ≠ s.tail.addr := by omega
  have heval := pushIterL_eval { s with heap := s.heap ++ [some (newLNode v)] }
    ⟨s.heap.length + 1, 0⟩ tn (newLNode v) htn1 htnnull hnp1 hnea
  -- name the pieces of the final state
  set ntp : TPtr := ⟨s.heap.length + 1, (tn.next.vers + 1) % P16⟩ with hntp
  set nd1 : LNode T := ⟨⟨0, (tn.next.vers + 1) % P16⟩, v, 1⟩ with hnd1
  set h3 : LHeap T := setL (setL (s.heap ++ [some (newLNode v)]) (s.heap.length + 1) nd1)
    s.tail.addr ⟨ntp, tn.data, tn.ref⟩ with hh3
  have hpushed : pushL s v = some { heap := h3, head := s.head, tail := ntp } := by
    show pushLoopL 1 { s with heap := s.heap ++ [some (newLNode v)] }
      (TPtr.mk' (s.heap.length + 1) 0) = _
    rw [hmodp, pushLoopL, heval]
    rfl
  have hlen3 : h3.length = s.heap.length + 1 := by
    rw [hh3, length_setL, length_setL, List.length_append, List.length_singleton]
  -- lookups in the final heap
  have hlook2 : lookupL (setL (s.heap ++ [some (newLNode v)]) (s.heap.length + 1) nd1)
      s.tail.addr = some tn := by
    rw [lookupL_set_ne _ _ _ _ hnea.symm (by omega) htnz]
    exact htn1
  have hlook3_tail : lookupL h3 s.tail.addr = some ⟨ntp, tn.data, tn.ref⟩ :=
    lookupL_set_self hlook2 _
  have hlook3_new : lookupL h3 (s.heap.length + 1) = some nd1 := by
    rw [hh3, lookupL_set_ne _ _ _ _ hnea (lookupL_ne_zero htn) (by omega)]
    exact lookupL_set_self hnp1 nd1
  have hlook3_old : ∀ x, x ≠ 0 → x ≠ s.tail.addr → x ≤ s.heap.length →
      lookupL h3 x = lookupL s.heap x := by
    intro x hx0 hxt hxle
    rw [hh3, lookupL_set_ne _ _ _ _ hxt htnz hx0,
      lookupL_set_ne _ _ _ _ (by omega) (by omega) hx0,
      lookupL_append_le _ _ _ hxle]
  have hmemz : ∀ x ∈ s.head.addr :: c, x ≠ 0 := by
    intro x hx
    rcases List.mem_cons.mp hx with hx | hx
    · rw [hx]; exact hne0
    · exact chainOk_mem_ne_zero hchain x hx
  refine ⟨_, hpushed, ?_, hlen3, rfl, rfl⟩
  refine ⟨hne0, ?_, ?_, ?_, ?_, ?_, ?_⟩
  · -- sentinel reference count still 0
    show refOf h3 s.head.addr = some 0
    by_cases hht : s.head.addr = s.tail.addr
    · rw [refOf, hht, hlook3_tail]
      rw [refOf, hht, htn] at href
      simpa using href
    · rw [refOf, hlook3_old _ hne0 hht hheadle]
      exact href
  · -- the extended chain
    show chainOk h3 s.head.addr (c ++ [s.heap.length + 1]) (l ++ [v])
    refine chainOk_snoc c l s.head.addr hchain hnodup ?_ ?_ ?_ ?_ ?_ ?_ ?_
    · intro x hx hxl
      have hxt : x ≠ s.tail.addr := by rw [htail]; exact hxl
      have hlk := hlook3_old x (hmemz x hx) hxt (hbound x hx)
      exact ⟨by simp only [dataOf, hlk], by simp only [refOf, hlk],
        by simp only [nextAddrOf, hlk]⟩
    · rw [← htail, nextAddrOf, hlook3_tail]
      rfl
    · rw [← htail, dataOf, hlook3_tail, dataOf, htn]
      rfl
    · rw [← htail, refOf, hlook3_tail, refOf, htn]
      rfl
    · rw [dataOf, hlook3_new]
      rfl
    · rw [refOf, hlook3_new]
      rfl
    · rw [nextAddrOf, hlook3_new]
      rfl
  · -- tail points at the new last node
    show ntp.addr = lastAddr s.head.addr (c ++ [s.heap.length + 1])
    rw [lastAddr_append]
  · -- distinctness
    show (s.head.addr :: (c ++ [s.heap.length + 1])).Nodup
    have : s.head.addr :: (c ++ [s.heap.length + 1]) =
        (s.head.addr :: c) ++ [s.heap.length + 1] := rfl
    rw [this, List.nodup_append]
    refine ⟨hnodup, List.nodup_singleton _, ?_⟩
    intro x hx
    have := hbound x hx
    simp
    omega
  · -- all addresses in range
    intro x hx
    rw [hlen3]
    have : s.head.addr :: (c ++ [s.heap.length + 1]) =
        (s.head.addr :: c) ++ [s.heap.length + 1] := rfl
    rw [this, List.mem_append] at hx
    rcases hx with hx | hx
    · have := hbound x hx
      omega
    · simp at hx
      omega
  · -- everything outside the chain is freed
    intro i hi
    rw [hlen3] at hi
    rcases Nat.lt_or_ge i s.heap.length with hilt | hige
    · rcases hcover i hilt with hm | hnone
      · left
        have : s.head.addr :: (c ++ [s.heap.length + 1]) =
            (s.head.addr :: c) ++ [s.heap.length + 1] := rfl
        rw [this, List.mem_append]
        exact Or.inl hm
      · right
        have hit : i + 1 ≠ s.tail.addr := by
          intro he
          have : s.heap[i]? = some (some tn) := by
            rw [lookupL, if_neg htnz] at htn
            have : s.tail.addr - 1 = i := by omega
            rw [this] at htn
            rcases hget : s.heap[i]? with _ | e
            · rw [hget] at htn; simp [Option.join] at htn
            · rw [hget] at htn
              simp [Option.join] at htn
              rw [htn]
          rw [this] at hnone
          simp at hnone
        show h3[i]? = some none
        rw [hh3, setL, setL, List.getElem?_set_ne (by omega),
          List.getElem?_set_ne (by omega), List.getElem?_append_left hilt]
        exact hnone
    · left
      have : i = s.heap.length := by omega
      have hmem : i + 1 ∈ [s.heap.length + 1] := by simp [this]
      have heq : s.head.addr :: (c ++ [s.heap.length + 1]) =
          (s.head.addr :: c) ++ [s.heap.length + 1] := rfl
      rw [heq, List.mem_append]
      exact Or.inr hmem

/-- In a state whose head node has a live non-null successor, a pop
iteration advances `_head`, reads the successor's payload, decrements the
successor's count and deletes the old head (whose count is 0). -/
theorem popIterL_eval (s : LState T) (hn n1 : LNode T)
    (hhn : lookupL s.heap s.head.addr = some hn)
    (hne : s.head.addr ≠ s.tail.addr)
    (hnn : hn.next.addr ≠ 0)
    (hn1 : lookupL s.heap hn.next.addr = some n1)
    (hr1 : n1.ref ≠ 0)
    (hr0 : hn.ref = 0)
    (hne2 : s.head.addr ≠ hn.next.addr) :
    popIterL s = PopRes.done n1.data
      { heap := freeL (setL s.heap hn.next.addr ⟨n1.next, n1.data, n1.ref - 1⟩) s.head.addr,
        head := hn.next.upgrade, tail := s.tail } := by
  have hhz : s.head.addr ≠ 0 := lookupL_ne_zero hhn
  have ha1z : hn.next.addr ≠ 0 := hnn
  have hn1' : lookupL s.heap hn.next.upgrade.addr = some n1 := hn1
  have hrel1 : releaseH s.heap hn.next.upgrade.addr =
      some (setL s.heap hn.next.addr ⟨n1.next, n1.data, n1.ref - 1⟩) := by
    simp only [releaseH, hn1']
    rw [if_neg hr1]
    rfl
  have hrel2 : releaseH (setL s.heap hn.next.addr ⟨n1.next, n1.data, n1.ref - 1⟩)
      s.head.addr =
      some (freeL (setL s.heap hn.next.addr ⟨n1.next, n1.data, n1.ref - 1⟩) s.head.addr) := by
    have hlk : lookupL (setL s.heap hn.next.addr ⟨n1.next, n1.data, n1.ref - 1⟩)
        s.head.addr = some hn := by
      rw [lookupL_set_ne _ _ _ _ hne2 ha1z hhz]
      exact hhn
    simp only [releaseH, hlk]
    rw [if_pos hr0]
  simp only [popIterL, hhn]
  rw [if_neg (by simp [TPtr.addrEqual, TPtr.isNull, hne, hnn])]
  rw [if_pos trivial]
  simp only [hn1', hrel1, hrel2]

/-- `pop` on a nonempty queue under the invariant: returns the first
value, frees the old sentinel, and the popped node becomes the sentinel. -/
theorem popL_inv (s : LState T) (a1 : Nat) (c' : List Nat) (v : T) (l' : List T)
    (hInv : InvL s (a1 :: c') (v :: l')) :
    ∃ s', popL s = some (some (v, s')) ∧ InvL s' c' l' ∧
      s'.heap.length = s.heap.length ∧ s'.tail = s.tail ∧ s'.head.addr = a1 := by
  obtain ⟨hne0, href, hchain, htail, hnodup, hbound, hcover⟩ := hInv
  rw [chainOk] at hchain
  obtain ⟨hnext, hdata, href1, hrest⟩ := hchain
  obtain ⟨hn, hlk, hrefeq⟩ := Option.map_eq_some'.mp href
  have hnexteq : hn.next.addr = a1 := by
    rw [nextAddrOf, hlk] at hnext
    simpa using hnext
  obtain ⟨n1, hlk1, hd1⟩ := Option.map_eq_some'.mp hdata
  have hr1 : n1.ref = 1 := by
    rw [refOf, hlk1] at href1
    simpa using href1
  have ha1z : a1 ≠ 0 := lookupL_ne_zero hlk1
  have hheadnotin : s.head.addr ∉ a1 :: c' := (List.nodup_cons.mp hnodup).1
  have hne : s.head.addr ≠ s.tail.addr := by
    rw [htail]
    intro he
    have : lastAddr s.head.addr (a1 :: c') = lastAddr a1 c' := rfl
    rw [this] at he
    exact hheadnotin (he ▸ lastAddr_mem a1 c')
  have hnea1 : s.head.addr ≠ a1 := by
    intro he
    exact hheadnotin (he ▸ List.mem_cons_self a1 c')
  have heval := popIterL_eval s hn n1 hlk hne (by rw [hnexteq]; exact ha1z)
    (by rw [hnexteq]; exact hlk1) (by rw [hr1]; omega) hrefeq
    (by rw [hnexteq]; exact hnea1)
  rw [hnexteq] at heval
  set h2 : LHeap T := setL s.heap a1 ⟨n1.next, n1.data, n1.ref - 1⟩ with hh2
  set h3 : LHeap T := freeL h2 s.head.addr with hh3
  have hmemz' : ∀ x ∈ c', x ≠ 0 := chainOk_mem_ne_zero hrest
  have hnodup1 : (a1 :: c').Nodup := (List.nodup_cons.mp hnodup).2
  have ha1notin : a1 ∉ c' := (List.nodup_cons.mp hnodup1).1
  have hlk3_a1 : lookupL h3 a1 = some ⟨n1.next, n1.data, n1.ref - 1⟩ := by
    rw [hh3, lookupL_free_ne _ _ _ (Ne.symm hnea1) hne0 ha1z]
    exact lookupL_set_self hlk1 _
  have hlk3_old : ∀ x, x ≠ 0 → x ≠ a1 → x ≠ s.head.addr →
      lookupL h3 x = lookupL s.heap x := by
    intro x hx0 hxa hxh
    rw [hh3, lookupL_free_ne _ _ _ hxh hne0 hx0, hh2,
      lookupL_set_ne _ _ _ _ hxa ha1z hx0]
  refine ⟨{ heap := h3, head := hn.next.upgrade, tail := s.tail }, ?_, ?_, ?_, rfl, ?_⟩
  · show popLoopL 1 s = _
    rw [popLoopL, heval, hd1]
  · refine ⟨?_, ?_, ?_, ?_, ?_, ?_, ?_⟩
    · show hn.next.upgrade.addr ≠ 0
      show hn.next.addr ≠ 0
      rw [hnexteq]
      exact ha1z
    · show refOf h3 hn.next.upgrade.addr = some 0
      show refOf h3 hn.next.addr = some 0
      rw [hnexteq, refOf, hlk3_a1]
      simp [hr1]
    · show chainOk h3 hn.next.upgrade.addr c' l'
      show chainOk h3 hn.next.addr c' l'
      rw [hnexteq]
      refine chainOk_congr hrest ?_ ?_
      · intro x hx
        rcases List.mem_cons.mp hx with hxa | hxc
        · subst hxa
          rw [nextAddrOf, hlk3_a1, nextAddrOf, hlk1]
          rfl
        · have hxne : x ≠ a1 := fun he => ha1notin (he ▸ hxc)
          have hxh : x ≠ s.head.addr :=
            fun he => hheadnotin (he ▸ List.mem_cons_of_mem a1 hxc)
          rw [nextAddrOf, hlk3_old x (hmemz' x hxc) hxne hxh]
          rfl
      · intro x hxc
        have hxne : x ≠ a1 := fun he => ha1notin (he ▸ hxc)
        have hxh : x ≠ s.head.addr :=
          fun he => hheadnotin (he ▸ List.mem_cons_of_mem a1 hxc)
        have hlkx := hlk3_old x (hmemz' x hxc) hxne hxh
        exact ⟨by simp only [dataOf, hlkx], by simp only [refOf, hlkx]⟩
    · show s.tail.addr = lastAddr hn.next.upgrade.addr c'
      show s.tail.addr = lastAddr hn.next.addr c'
      rw [hnexteq, htail]
      rfl
    · show (hn.next.upgrade.addr :: c').Nodup
      show (hn.next.addr :: c').Nodup
      rw [hnexteq]
      exact hnodup1
    · intro x hx
      have hlen3 : h3.length = s.heap.length := by
        rw [hh3, length_freeL, hh2, length_setL]
      rw [hlen3]
      have hx' : x ∈ s.head.addr :: a1 :: c' := by
        rcases List.mem_cons.mp hx with hxa | hxc
        · have : x = a1 := by
            rw [hxa]
            show hn.next.addr = a1
            exact hnexteq
          simp [this]
        · simp [hxc]
      exact hbound x hx'
    · intro i hi
      have hlen3 : h3.length = s.heap.length := by
        rw [hh3, length_freeL, hh2, length_setL]
      rw [hlen3] at hi
      by_cases hih : i + 1 = s.head.addr
      · right
        show h3[i]? = some none
        rw [hh3, freeL]
        have : s.head.addr - 1 = i := by omega
        rw [this]
        exact List.getElem?_set_self (by rw [hh2, length_setL]; omega)
      · by_cases hia : i + 1 = a1
        · left
          have hupa : ({ heap := h3, head := hn.next.upgrade, tail := s.tail } :
              LState T).head.addr = a1 := hnexteq
          rw [hupa, hia]
          exact List.mem_cons_self _ _
        · rcases hcover i hi with hm | hnone
          · left
            rcases List.mem_cons.mp hm with hmh | hmt
            · exact absurd hmh hih
            · rcases List.mem_cons.mp hmt with hma | hmc
              · exact absurd hma hia
              · have : i + 1 ∈ hn.next.upgrade.addr :: c' := by
                  simp [hmc]
                exact this
          · right
            show h3[i]? = some none
            rw [hh3, freeL, List.getElem?_set_ne (by omega), hh2, setL,
              List.getElem?_set_ne (by omega)]
            exact hnone
  · rw [hh3, length_freeL, hh2, length_setL]
  · show hn.next.upgrade.addr = a1
    show hn.next.addr = a1
    exact hnexteq

/-- `pop` on an empty queue under the invariant reports empty. -/
theorem popL_inv_empty (s : LState T) (hInv : InvL s ([] : List Nat) ([] : List T)) :
    popL s = some none := by
  obtain ⟨hne0, href, hchain, htail, hnodup, hbound, hcover⟩ := hInv
  obtain ⟨hn, hlk, hrefeq⟩ := Option.map_eq_some'.mp href
  have : popIterL s = PopRes.empty := by
    simp only [popIterL, hlk]
    have haddr : s.head.addrEqual s.tail := by
      show s.head.addr = s.tail.addr
      rw [htail]
      rfl
    rw [if_pos (Or.inl haddr)]
  rw [popL, popLoopL, this]

instance (s : LState T) [DecidableEq T] (c : List Nat) (l : List T) :
    Decidable (InvL s c l) := by
  unfold InvL
  infer_instance

/-- The destructor's drain loop empties the queue, popping once per
stored value plus one final empty-reporting pop. -/
theorem drainL_inv : ∀ (l : List T) (s : LState T) (c : List Nat), InvL s c l →
    ∃ s', drainL (l.length + 1) s = some s' ∧ InvL s' [] [] := by
  intro l
  induction l with
  | nil =>
    intro s c hInv
    have hc : c = [] := chainOk_nil_right hInv.2.2.1
    subst hc
    refine ⟨s, ?_, hInv⟩
    simp only [List.length_nil, drainL, popL_inv_empty s hInv]
  | cons v l ih =>
    intro s c hInv
    obtain ⟨a1, c', rfl⟩ := chainOk_cons_shape hInv.2.2.1
    obtain ⟨s1, hpop, hInv1, _, _, _⟩ := popL_inv s a1 c' v l hInv
    obtain ⟨s', hdrain, hInv'⟩ := ih s1 c' hInv1
    refine ⟨s', ?_, hInv'⟩
    simp only [List.length_cons, drainL, hpop]
    exact hdrain

/-- Claim C5 (confirmed): destroying the unbounded queue from any
single-threaded reachable state (characterised by `InvL`) pops all
remaining elements and then releases the final head node once; every node
still owned by the queue, the sentinel included, is released and
deallocated exactly once — the final heap is entirely freed (no leak), and
the run never releases an already-freed node (releasing a freed address
yields `none`, so success of `dtorL` rules out any double delete). -/
theorem c5_dtor (s : LState Nat) (c : List Nat) (l : List Nat) (hInv : InvL s c l) :
    ∃ s', dtorL (l.length + 1) s = some s' ∧ ∀ e ∈ s'.heap, e = none := by
  obtain ⟨s1, hdrain, hInv1⟩ := drainL_inv l s c hInv
  obtain ⟨hne0, href, hchain, htail, hnodup, hbound, hcover⟩ := hInv1
  obtain ⟨hn, hlk, hrefeq⟩ := Option.map_eq_some'.mp href
  have hrel : releaseH s1.heap s1.head.addr = some (freeL s1.heap s1.head.addr) := by
    simp only [releaseH, hlk]
    rw [if_pos hrefeq]
  refine ⟨{ s1 with heap := freeL s1.heap s1.head.addr }, ?_, ?_⟩
  · simp only [dtorL, hdrain, hrel]
  · intro e he
    obtain ⟨i, hi, hei⟩ := List.mem_iff_getElem.mp he
    have hlen' : (freeL s1.heap s1.head.addr).length = s1.heap.length := length_freeL _ _
    have hi' : i < s1.heap.length := by
      rw [← hlen']
      simpa using hi
    have hfree : (freeL s1.heap s1.head.addr)[i]? = some e := by
      rw [List.getElem?_eq_getElem hi]
      exact congrArg some hei
    by_cases hih : i = s1.head.addr - 1
    · rw [freeL, hih, List.getElem?_set_self (by omega)] at hfree
      simpa using hfree.symm
    · rcases hcover i hi' with hm | hnone
      · exfalso
        simp at hm
        omega
      · rw [freeL, List.getElem?_set_ne (by omega)] at hfree
        rw [hnone] at hfree
        simpa using hfree.symm

/-- Witness for C5 at the freshly constructed queue. -/
theorem c5_dtor_witness :
    ∃ s', dtorL 1 (mkL Nat) = some s' ∧ ∀ e ∈ s'.heap, e = none :=
  c5_dtor (mkL Nat) [] [] (by decide)

/-- Pushing a list of values succeeds throughout and appends them. -/
theorem pushSeqL_inv : ∀ (vs : List T) (s : LState T) (c : List Nat) (l : List T),
    InvL s c l → s.heap.length + vs.length < P48 →
    ∃ s' c', pushSeqL s vs = some s' ∧ InvL s' c' (l ++ vs) ∧
      s'.heap.length = s.heap.length + vs.length := by
  intro vs
  induction vs with
  | nil =>
    intro s c l hInv _
    exact ⟨s, c, rfl, by simpa using hInv, by simp⟩
  | cons v vs ih =>
    intro s c l hInv hlen
    have hlen1 : s.heap.length + 1 < P48 := by
      simp only [List.length_cons] at hlen
      omega
    obtain ⟨s1, hpush, hInv1, hlens1, _, _⟩ := pushL_inv s c l v hInv hlen1
    have hlen2 : s1.heap.length + vs.length < P48 := by
      rw [hlens1]
      simp only [List.length_cons] at hlen
      omega
    obtain ⟨s', c', hseq, hInv', hlen'⟩ := ih s1 _ _ hInv1 hlen2
    refine ⟨s', c', ?_, ?_, ?_⟩
    · simp only [pushSeqL, hpush]
      exact hseq
    · rw [List.append_cons]
      exact hInv'
    · rw [hlen', hlens1, List.length_cons]
      omega

/-- Draining a queue holding `l` pops exactly `l` in order. -/
theorem popSeqL_inv : ∀ (l : List T) (s : LState T) (c : List Nat),
    InvL s c l → ∃ s', popSeqL s l.length = some (l, s') ∧ InvL s' [] [] := by
  intro l
  induction l with
  | nil =>
    intro s c hInv
    have hc : c = [] := chainOk_nil_right hInv.2.2.1
    subst hc
    exact ⟨s, rfl, hInv⟩
  | cons v l ih =>
    intro s c hInv
    obtain ⟨a1, c', rfl⟩ := chainOk_cons_shape hInv.2.2.1
    obtain ⟨s1, hpop, hInv1, _, _, _⟩ := popL_inv s a1 c' v l hInv
    obtain ⟨s', hseq, hInv'⟩ := ih s1 c' hInv1
    refine ⟨s', ?_, hInv'⟩
    simp only [List.length_cons, popSeqL, hpop, hseq]

/-- Claim C1 (confirmed): pushing `v1..vk` into a fresh queue of either
kind (the unbounded list queue, or the bounded array queue whose effective
capacity is at least `k`) and then popping `k` times succeeds every time
and returns exactly `v1..vk` in order — FIFO with no loss and no
duplication in the single-threaded case. (The unbounded side carries the
machine-level bound `k + 2 ≤ 2^48` — the 48-bit address field of the
tagged pointers limits the number of distinguishable allocations.) -/
theorem c1_fifo (vs : List Nat) (cap : Nat) (h48 : vs.length + 2 ≤ 2 ^ 48)
    (hcap : vs.length ≤ (mkA Nat cap).capacity) :
    (∃ s1 s2, pushSeqL (mkL Nat) vs = some s1 ∧ popSeqL s1 vs.length = some (vs, s2)) ∧
    (∃ q1 q2, pushSeqA (mkA Nat cap) vs = some (List.replicate vs.length true, q1) ∧
      popSeqA q1 vs.length = some (vs, q2)) := by
  constructor
  · have hInv0 : InvL (mkL Nat) ([] : List Nat) ([] : List Nat) := by decide
    have hlen0 : (mkL Nat).heap.length = 1 := rfl
    obtain ⟨s1, c1, hseq, hInv1, _⟩ := pushSeqL_inv vs (mkL Nat) [] [] hInv0 (by
      rw [hlen0]
      simp only [P48]
      omega)
    rw [List.nil_append] at hInv1
    obtain ⟨s2, hpop, _⟩ := popSeqL_inv vs s1 c1 hInv1
    exact ⟨s1, s2, hseq, hpop⟩
  · rcases mkA_cases Nat cap with ⟨_, hcap0⟩ | ⟨k, _, hk63, hInvA0⟩
    · rw [hcap0] at hcap
      have hnil : vs = [] := List.eq_nil_of_length_eq_zero (by omega)
      subst hnil
      exact ⟨mkA Nat cap, mkA Nat cap, rfl, rfl⟩
    · have hcapk : (mkA Nat cap).capacity = 2 ^ k := hInvA0.cap
      rw [hcapk] at hcap
      have hpk : (2 : Nat) ^ k ≤ 2 ^ 63 := Nat.pow_le_pow_right (by norm_num) hk63
      have h64 : (2 : Nat) ^ 63 < 2 ^ 64 := by norm_num
      have hU : (mkA Nat cap).head + 2 ^ k < U64 := by
        rw [mkA_head]
        simp only [U64]
        omega
      obtain ⟨q1, hseq, hInv1, hh1, _⟩ := pushSeqA_inv vs hInvA0 (by simpa using hcap) hU
      rw [List.nil_append] at hInv1
      have hU2 : q1.head + vs.length + 2 ^ k ≤ U64 := by
        rw [hh1, mkA_head]
        simp only [U64]
        omega
      obtain ⟨q2, hpop, _, _, _⟩ := popSeqA_inv vs hInv1 hU2
      exact ⟨q1, q2, hseq, hpop⟩

/-- Witness for C1 at `v1..v3 = 10, 20, 30` and requested capacity 5. -/
theorem c1_fifo_witness :
    (∃ s1 s2, pushSeqL (mkL Nat) [10, 20, 30] = some s1 ∧
      popSeqL s1 3 = some ([10, 20, 30], s2)) ∧
    (∃ q1 q2, pushSeqA (mkA Nat 5) [10, 20, 30] = some (List.replicate 3 true, q1) ∧
      popSeqA q1 3 = some ([10, 20, 30], q2)) :=
  c1_fifo [10, 20, 30] 5 (by norm_num) (by decide)

end LFQ
